import Mathlib

/-!
Verification of the rksim reaction-kinetics package (t-young31/rksim).

This file gives a shallow embedding of the core of rksim:
species/reactions (`src/rksim/species.py`, `src/rksim/reactions.py`),
the reaction network (`src/rksim/networks.py`), the derivative engine and
rate-constant handling (`src/rksim/systems.py`), time-series validation and
assignment (`src/rksim/data.py`) and the initial-concentration vector built
in `src/rksim/fit.py`.  Python floats are modelled as `ℚ`, numpy arrays as
`List`s, and raising an exception as returning `Except.error` with an error
kind.  Definitions keep the source names where Lean allows it.
-/

namespace Rksim

/-- Error kinds.  `rksim/exceptions.py` is not present in the source tree
(only its importers are).  Modelled from the spec: §7 lists the domain error
kinds `AttributeNotFound` (exception class `CannotGetAttribute`),
`AttributeRejected` (`CannotSetAttribute`), `MalformedInput`
(`DataMalformatted`), `SetupFailure` (`RKSimCritical`) and
`UnsupportedTopology` (Python `NotImplementedError`).  Python builtin
exceptions that the sources can also raise (`assert` statements,
`np.min` on an empty array, indexing an empty array, dict lookup misses)
are kept as separate kinds, since they are distinct exception classes. -/
inductive ErrKind where
  | cannotGet        -- CannotGetAttribute, the AttributeNotFound kind
  | cannotSet        -- CannotSetAttribute, the AttributeRejected kind
  | malformatted     -- DataMalformatted, the MalformedInput kind
  | critical         -- RKSimCritical, the SetupFailure kind
  | notImplemented   -- NotImplementedError, the UnsupportedTopology kind
  | assertionError   -- Python AssertionError from a bare `assert`
  | valueError       -- Python ValueError (e.g. np.min of an empty array)
  | indexError       -- Python IndexError (indexing an empty array)
  | nonNumericStore  -- storing a non-numeric value where the model needs ℚ
deriving DecidableEq, Repr

/-- The role of a species inside one reaction: the `Reactant` and `Product`
subclasses of `Species` in `src/rksim/species.py`. -/
inductive Role where
  | reactant
  | product
deriving DecidableEq, Repr

/-- `Species` from `src/rksim/species.py`: a name, the subclass it was
constructed as, and a stoichiometry (initialised to 1 in `__init__` and
overwritten by `prune_species`).  The attached time series are modelled
separately (`Data.assign` below works on the network nodes). -/
structure Species where
  name : String
  role : Role
  stoichiometry : Nat := 1
deriving DecidableEq, Repr

/-- `Species.__eq__` (src/rksim/species.py lines 6-7): equality is decided
by name alone, whatever the subclass or stoichiometry. -/
def speciesEq (s other : Species) : Bool :=
  s.name == other.name

/-- `Reactant(name)` -/
def Reactant (name : String) : Species := { name := name, role := .reactant }

/-- `Product(name)` -/
def Product (name : String) : Species := { name := name, role := .product }

/-- Lexicographic comparison of character lists by code point: the order
Python string comparison (and hence `sorted`) uses. -/
def charListLt : List Char → List Char → Bool
  | [], [] => false
  | [], _ :: _ => true
  | _ :: _, [] => false
  | a :: as, b :: bs =>
      if a.toNat < b.toNat then true
      else if b.toNat < a.toNat then false
      else charListLt as bs

/-- Python `a < b` on strings. -/
def pyStrLt (a b : String) : Bool :=
  charListLt a.data b.data

/-- Insert a species into a list sorted by name (ascending, stable):
helper for Python's `sorted(..., key=lambda s: s.name)`. -/
def insertByName (s : Species) : List Species → List Species
  | [] => [s]
  | t :: ts =>
      if pyStrLt t.name s.name then t :: insertByName s ts else s :: t :: ts

/-- `sorted(unique_species, key=lambda s: s.name)` as a stable insertion
sort on names. -/
def sortByName : List Species → List Species
  | [] => []
  | s :: ss => insertByName s (sortByName ss)

/-- One species per name, keeping the first occurrence of each name not in
`seen`: the `identical_species[0]` selection of `prune_species`, driven by
the set of unique names. -/
def firstPerName (seen : List String) : List Species → List Species
  | [] => []
  | s :: rest =>
      if seen.any (fun nm => nm == s.name) then firstPerName seen rest
      else s :: firstPerName (s.name :: seen) rest

/-- `prune_species` (src/rksim/reactions.py lines 7-25): for each unique
name take its first occurrence (keeping that occurrence's class), set its
stoichiometry to the number of occurrences of the name, and sort the result
alphabetically by name.  (The Python `set` of names has arbitrary iteration
order, but the final `sorted` makes the result deterministic, so the result
is the first occurrence of each name, with the occurrence count, sorted by
name.) -/
def pruneSpecies (components : List Species) : List Species :=
  sortByName
    ((firstPerName [] components).map
      (fun s =>
        { s with stoichiometry := components.countP (fun t => t.name == s.name) }))

/-- The concrete class a reaction was constructed as:
`Reaction`, `Irreversible` or `Reversible` (src/rksim/reactions.py). -/
inductive RxnKind where
  | base
  | irreversible
  | reversible
deriving DecidableEq, Repr

/-- `Reaction` (src/rksim/reactions.py): pruned component list, the class it
was constructed as, and the per-reaction rate constant `k` (initialised 1.0). -/
structure Reaction where
  components : List Species
  kind : RxnKind
  k : ℚ := 1
deriving DecidableEq, Repr

/-- `Reaction(*args)` for a flat list of species instances
(src/rksim/reactions.py lines 98-107, the non-string branch):
`self.components = prune_species(args)`; no other validation is done. -/
def Reaction.ofSpecies (kind : RxnKind) (args : List Species) : Reaction :=
  { components := pruneSpecies args, kind := kind }

/-- `Reaction.is_reversible` (src/rksim/reactions.py lines 63-70).  The
Python function returns `True` for `Reversible`, `False` for `Irreversible`
and falls through (returns `None`) for the base class; every caller uses the
result in boolean position, where `None` behaves as `False`. -/
def Reaction.isReversible (r : Reaction) : Bool :=
  r.kind == .reversible

/-- `Reaction.reactants`: the components that are `Reactant` instances,
in component order. -/
def Reaction.reactants (r : Reaction) : List Species :=
  r.components.filter (fun s => s.role == .reactant)

/-- `Reaction.products`: the components that are `Product` instances,
in component order. -/
def Reaction.products (r : Reaction) : List Species :=
  r.components.filter (fun s => s.role == .product)

/-- `Reaction.sto(name)` (src/rksim/reactions.py lines 80-87): the
stoichiometry of the named component, or 0 if absent. -/
def Reaction.sto (r : Reaction) (name : String) : Nat :=
  match r.components.find? (fun s => s.name == name) with
  | some s => s.stoichiometry
  | none => 0

/-- Prepend a character to the first segment of a split (helper mirroring
how Python `str.split` accumulates the current segment). -/
def consHead (c : Char) : List (List Char) → List (List Char)
  | [] => [[c]]
  | h :: t => (c :: h) :: t

/-- Python `string.split('->')` on the character list: split on each
non-overlapping, left-to-right occurrence of the two-character separator
`->`, keeping empty segments.  No stripping of any other character is
performed. -/
def splitArrow : List Char → List (List Char)
  | [] => [[]]
  | c :: rest =>
      match c, rest with
      | '-', '>' :: rest2 => [] :: splitArrow rest2
      | _, r => consHead c (splitArrow r)

/-- `Reaction._init_from_string` (src/rksim/reactions.py lines 89-96):
`l, r = string.split('->')` (a ValueError if the split does not give exactly
two parts), then each side is split on `'+'`, the left parts become
`Reactant`s, the right parts `Product`s, and the list is pruned.
Python `side.split('+')` is `List.splitOn '+'` on the characters. -/
def initFromString (s : String) : Except ErrKind (List Species) :=
  match splitArrow s.data with
  | [l, r] =>
      .ok (pruneSpecies
        ((l.splitOn '+').map (fun nm => Reactant (String.mk nm)) ++
         (r.splitOn '+').map (fun nm => Product (String.mk nm))))
  | _ => .error .valueError

/-- `Reaction(string)` for the single-string constructor branch
(src/rksim/reactions.py lines 98-107). -/
def Reaction.ofString (kind : RxnKind) (s : String) : Except ErrKind Reaction :=
  (initFromString s).map (fun comps => { components := comps, kind := kind })

/-- A node of the reaction network (src/rksim/networks.py `add_nodes`,
lines 269-303): its name, initial concentration `c0`, the species object,
and the `n_neighbours` attribute set by `populate_neighbour_number`. -/
structure Node where
  name : String
  c0 : ℚ
  species : Species
  nNeighbours : Nat := 0
deriving DecidableEq, Repr

/-- The attribute dictionary of one directed edge.  `add` and `k` are set at
construction (`add_addition_edges` sets `add=True, k=None`;
`add_reaction_edges` sets `add=False, k=default`).  The `sto` attribute read
by `System.derivative` is modelled from the spec: it is attached by
`System.set_stoichiometries`, which is absent from the source tree (only its
caller `fit` is); spec §3 describes a reaction edge as carrying a
`stoichiometry_pair: (reactant_sto, product_sto)`.  Addition edges never
have their `sto` read; it is stored as `(0, 0)` for them. -/
structure EdgeAttrs where
  add : Bool
  k : Option ℚ
  sto : Nat × Nat
deriving DecidableEq, Repr

/-- `Network` (src/rksim/networks.py), a `networkx.DiGraph` subclass.
`nodes` is the node list in insertion order (node index = list position,
matching `add_nodes` which keys nodes `0, 1, ...`).  `edgeIns` records the
directed edges in first-insertion order together with their attributes.
`edgeMapping` is the `edge_mapping` dict set by `set_edge_mapping`, as an
association list keyed by the enumeration index of the representative
edge. -/
structure Network where
  nodes : List Node
  edgeIns : List ((Nat × Nat) × EdgeAttrs)
  edgeMapping : List (Nat × List (Nat × Nat))
deriving DecidableEq, Repr

/-- `networkx.DiGraph.add_edge(i, j, **attrs)`: update the attributes in
place if the edge exists (its position in the adjacency structure is kept),
otherwise append a new edge.  All three attribute keys are rewritten, which
matches every call site in the source (each call passes its full attribute
set). -/
def Network.addEdge (net : Network) (i j : Nat) (a : EdgeAttrs) : Network :=
  if net.edgeIns.any (fun e => e.1 = (i, j)) then
    { net with
      edgeIns := net.edgeIns.map (fun e => if e.1 = (i, j) then (e.1, a) else e) }
  else
    { net with edgeIns := net.edgeIns ++ [((i, j), a)] }

/-- `(i, j) in self.edges` -/
def Network.hasEdge (net : Network) (i j : Nat) : Bool :=
  net.edgeIns.any (fun e => e.1 = (i, j))

/-- `self.edges[(i, j)]`, as an `Option` (a miss is a Python `KeyError`). -/
def Network.attrs? (net : Network) (i j : Nat) : Option EdgeAttrs :=
  (net.edgeIns.find? (fun e => e.1 = (i, j))).map (fun e => e.2)

/-- `self.edges[(i, j)]['add']` on an existing edge (`false` on a miss,
which never occurs at the call sites: `add` is only read behind an
`(i, j) in self.edges` test). -/
def Network.isAdd (net : Network) (i j : Nat) : Bool :=
  match net.attrs? i j with
  | some a => a.add
  | none => false

/-- `self.network[i][j]['k']` on a reaction edge (reaction edges always
carry `some k`; the default 0 is never reached at the call sites). -/
def Network.kOf (net : Network) (i j : Nat) : ℚ :=
  ((net.attrs? i j).bind (fun a => a.k)).getD 0

/-- `self.network.edges[(i, j)]['sto']` -/
def Network.stoOf (net : Network) (i j : Nat) : Nat × Nat :=
  ((net.attrs? i j).map (fun a => a.sto)).getD (0, 0)

/-- The edges in `networkx` iteration order (`for edge in self.edges`):
grouped by source node in node-insertion order, and within one source in
edge-insertion order. -/
def Network.edgesInOrder (net : Network) : List ((Nat × Nat) × EdgeAttrs) :=
  (List.range net.nodes.length).flatMap
    (fun u => net.edgeIns.filter (fun e => e.1.1 = u))

/-- `neighbours(network, node_index)` (src/rksim/networks.py lines 236-256):
iterate over all edges with their `add` attribute and yield the target of
every addition edge whose source is `node_index`. -/
def Network.neighbours (net : Network) (i : Nat) : List Nat :=
  net.edgesInOrder.filterMap
    (fun e => if e.2.add = true ∧ e.1.1 = i then some e.1.2 else none)

/-- `self.network.neighbours_a(i)` called by `System.derivative`.  The
method itself is absent from the source tree's `Network` class.  Modelled
from the spec: §4.2 `neighbors_along_coreactant_edges(node)`, identical to
the module-level `neighbours` above (the co-reactant/addition-edge
neighbours of a node). -/
def Network.neighbours_a (net : Network) (i : Nat) : List Nat :=
  net.neighbours i

/-- `node_name_to_index(name, graph)` (src/rksim/networks.py lines
259-266): first node index whose `name` attribute matches, else `None`. -/
def nodeNameToIndex (name : String) (net : Network) : Option Nat :=
  (net.nodes.enum.find? (fun p => p.2.name == name)).map (fun p => p.1)

/-- `inflow_node(network, node_index)` (src/rksim/networks.py lines
177-188): the predecessors of the node along non-addition edges, in
predecessor-insertion order. -/
def inflowNode (net : Network) (i : Nat) : List Nat :=
  net.edgeIns.filterMap
    (fun e => if e.1.2 = i ∧ e.2.add = false then some e.1.1 else none)

/-- `outflow_node(network, node_index)` (src/rksim/networks.py lines
191-202): the successors of the node along non-addition edges, in
successor-insertion order. -/
def outflowNode (net : Network) (i : Nat) : List Nat :=
  net.edgeIns.filterMap
    (fun e => if e.1.1 = i ∧ e.2.add = false then some e.1.2 else none)

/-- `Network.add_addition_edges(species)` (src/rksim/networks.py lines
7-26): for exactly two species add an addition edge in both directions
(`add=True, k=None`); more than two raises `NotImplementedError`. -/
def addAdditionEdges (net : Network) (species : List Species) :
    Except ErrKind Network :=
  match species with
  | [s1, s2] =>
      let i1 := (nodeNameToIndex s1.name net).getD 0
      let i2 := (nodeNameToIndex s2.name net).getD 0
      let net1 := net.addEdge i1 i2 { add := true, k := none, sto := (0, 0) }
      .ok (net1.addEdge i2 i1 { add := true, k := none, sto := (0, 0) })
  | _ :: _ :: _ :: _ => .error .notImplemented
  | _ => .ok net

/-- `Network.add_reaction_edges(reaction, default_k=1.0)`
(src/rksim/networks.py lines 28-51): for every (reactant, product) pair add
a directed reaction edge with `k = 1.0, add=False`, and the reverse edge as
well when the reaction is reversible.  The `sto` pair is modelled from the
spec (see `EdgeAttrs`): `(stoichiometry of the reactant side species,
stoichiometry of the product side species)` within this reaction. -/
def addReactionEdges (net : Network) (rxn : Reaction) : Network :=
  rxn.reactants.foldl
    (fun n1 r =>
      rxn.products.foldl
        (fun n2 p =>
          let rIdx := (nodeNameToIndex r.name n2).getD 0
          let pIdx := (nodeNameToIndex p.name n2).getD 0
          let n3 := n2.addEdge rIdx pIdx
            { add := false, k := some 1, sto := (rxn.sto r.name, rxn.sto p.name) }
          if rxn.isReversible then
            n3.addEdge pIdx rIdx
              { add := false, k := some 1, sto := (rxn.sto p.name, rxn.sto r.name) }
          else n3)
        n1)
    net

/-- `add_nodes(network, reactions)` (src/rksim/networks.py lines 269-303):
one node per first-seen species name, with `c0 = 1E-8`.  The guard
`if species.order != 1: raise NotImplementedError` refers to a `Species`
attribute absent from `src/rksim/species.py`; modelled from the spec, §7's
`UnsupportedTopology` names "higher stoichiometric node orders in the
addition-edge construction", so `order` is read as the species
stoichiometry. -/
def addNodes (reactions : List Reaction) : Except ErrKind (List Node) :=
  reactions.foldlM
    (fun acc rxn =>
      rxn.components.foldlM
        (fun (acc2 : List Node) s =>
          if s.stoichiometry ≠ 1 then .error .notImplemented
          else if acc2.any (fun nd => nd.name == s.name) then .ok acc2
          else .ok (acc2 ++ [{ name := s.name, c0 := 1 / 100000000, species := s }]))
        acc)
    []

/-- `populate_neighbour_number(network)` (src/rksim/networks.py lines
205-233): store on each node the number of its addition-edge neighbours. -/
def populateNeighbourNumber (net : Network) : Network :=
  { net with
    nodes := net.nodes.enum.map
      (fun p => { p.2 with nNeighbours := (net.neighbours p.1).length }) }

/-- One step of `Network.set_edge_mapping`'s main loop
(src/rksim/networks.py lines 53-120), processing the enumerated edge `p`
with accumulator `(edge_mapping so far, added_edges so far)`:
skip addition edges and edges already added; otherwise collect
`edges_same_k` = the edge itself, then `(neighbour, j)` edges for addition
neighbours of `i`, then non-addition `(neighbour_i, neighbour_j)` edges for
addition-neighbour pairs, then `(i, neighbour)` edges for addition
neighbours of `j`; key the class by the enumeration index. -/
def setEdgeMappingStep (net : Network)
    (acc : List (Nat × List (Nat × Nat)) × List (Nat × Nat))
    (p : Nat × ((Nat × Nat) × EdgeAttrs)) :
    List (Nat × List (Nat × Nat)) × List (Nat × Nat) :=
  let n := p.1
  let i := p.2.1.1
  let j := p.2.1.2
  if p.2.2.add = true then acc
  else if (i, j) ∈ acc.2 then acc
  else
    let c1 := [(i, j)] ++
      (net.neighbours i).filterMap
        (fun nb => if net.hasEdge nb j then some (nb, j) else none)
    let c2 := c1 ++
      (net.neighbours i).flatMap
        (fun ni =>
          (net.neighbours j).filterMap
            (fun nj =>
              if net.hasEdge ni nj ∧ net.isAdd ni nj = false then some (ni, nj)
              else none))
    let c3 := c2 ++
      (net.neighbours j).filterMap
        (fun nb => if net.hasEdge i nb then some (i, nb) else none)
    (acc.1 ++ [(n, c3)], acc.2 ++ c3)

/-- `Network.set_edge_mapping()` (src/rksim/networks.py lines 53-120). -/
def setEdgeMapping (net : Network) : Network :=
  { net with
    edgeMapping := (net.edgesInOrder.enum.foldl (setEdgeMappingStep net) ([], [])).1 }

/-- `make_network(reactions)` (src/rksim/networks.py lines 135-174). -/
def makeNetwork (reactions : List Reaction) : Except ErrKind Network := do
  let nodes ← addNodes reactions
  let net0 : Network := { nodes := nodes, edgeIns := [], edgeMapping := [] }
  let net1 ← reactions.foldlM
    (fun n rxn => do
      let na ← addAdditionEdges n rxn.reactants
      let nb ← addAdditionEdges na rxn.products
      pure (addReactionEdges nb rxn))
    net0
  pure (setEdgeMapping (populateNeighbourNumber net1))

/-- `self.network[i][j]['k'] = v` on an existing edge (a missing edge would
be a Python `KeyError`; the call sites only write to edges recorded in
`edge_mapping`). -/
def Network.setK (net : Network) (i j : Nat) (v : ℚ) : Network :=
  { net with
    edgeIns := net.edgeIns.map
      (fun e => if e.1 = (i, j) then (e.1, { e.2 with k := some v }) else e) }

/-- `System.rate_constants` (src/rksim/systems.py lines 45-54): one `k` per
equivalence class, read from the first edge of each class, in class order. -/
def rateConstants (net : Network) : List ℚ :=
  net.edgeMapping.map
    (fun c =>
      match c.2.head? with
      | some e => net.kOf e.1 e.2
      | none => 0)

/-- The writing loop of `System.set_rate_constants` (src/rksim/systems.py
lines 70-73): for the `n`-th equivalence class, write `ks[n]` to every edge
of the class. -/
def setRateConstantsList (net : Network) (ks : List ℚ) : Network :=
  net.edgeMapping.enum.foldl
    (fun a p => p.2.2.foldl (fun a2 e => a2.setK e.1 e.2 (ks.getD p.1 0)) a)
    net

/-- `System.set_rate_constants(ks=...)` (src/rksim/systems.py lines 56-75):
the guard is a bare `assert len(ks) == n_edges`, so a wrong-length list
raises Python `AssertionError` (not `CannotSetAttribute`). -/
def setRateConstants (net : Network) (ks : List ℚ) : Except ErrKind Network :=
  if ks.length = net.edgeMapping.length then .ok (setRateConstantsList net ks)
  else .error .assertionError

/-- `System.set_rate_constants(k=...)`: broadcast one `k` over all
equivalence classes (`ks = n_edges * [k]`, so the assert passes). -/
def setRateConstantsK (net : Network) (k : ℚ) : Network :=
  setRateConstantsList net (List.replicate net.edgeMapping.length k)

/-- `self.network.get_edge(name_i, name_j)` used by `System.rate_constant`
and `System.set_rate_constant`.  The method is absent from the source
tree's `Network` class.  Modelled from the spec: §4.2
`get_edge(name_i, name_j) -> edge | NotFound` — look both names up and
return the edge's attributes, a miss being a `KeyError` (here `none`). -/
def Network.getEdge (net : Network) (nameI nameJ : String) : Option EdgeAttrs := do
  let i ← nodeNameToIndex nameI net
  let j ← nodeNameToIndex nameJ net
  net.attrs? i j

/-- `System.rate_constant(name_i, name_j)` (src/rksim/systems.py lines
95-108): return the edge's `k` (which is `None` on an addition edge), or
raise `CannotGetAttribute` when the lookup raises `KeyError`. -/
def rateConstant (net : Network) (nameI nameJ : String) :
    Except ErrKind (Option ℚ) :=
  match net.getEdge nameI nameJ with
  | some a => .ok a.k
  | none => .error .cannotGet

/-- `System.derivative(concentrations, time=0.0)` (src/rksim/systems.py
lines 147-234).  For each index `i` (over the length of the concentration
vector): outflows sum `k * conc / m` over non-addition successor edges
`i -> j`, where `conc` starts as `sto * c_i ** sto` and is multiplied by
`sto_k * c_k ** sto_k` for every addition neighbour `k` of `i` holding a
non-addition edge to `j`, and `m` is 1 plus the number of addition
neighbours of `j` that `i` has any edge to; inflows are the symmetric sum
over non-addition predecessor edges `j -> i`, with `conc` starting from the
product-side stoichiometry and `m` counted in the same loop.  The `time`
argument is unused (present for the integrator interface). -/
def derivative (net : Network) (concentrations : List ℚ) (_time : ℚ) :
    List ℚ :=
  (List.range concentrations.length).map (fun i =>
    let neighbours_i := net.neighbours_a i
    let outflows : ℚ :=
      (outflowNode net i).foldl
        (fun acc j =>
          let sto := (net.stoOf i j).1
          let conc0 := (sto : ℚ) * (concentrations.getD i 0) ^ sto
          let conc := neighbours_i.foldl
            (fun c kk =>
              if net.hasEdge kk j = false then c
              else if net.isAdd kk j = true then c
              else
                let s := (net.stoOf kk j).1
                c * ((s : ℚ) * (concentrations.getD kk 0) ^ s))
            conc0
          let m : Nat :=
            1 + ((net.neighbours_a j).filter (fun kk => net.hasEdge i kk)).length
          acc + net.kOf i j * conc / (m : ℚ))
        0
    let inflows : ℚ :=
      (inflowNode net i).foldl
        (fun acc j =>
          let stoPair := net.stoOf j i
          let conc0 := (stoPair.2 : ℚ) * (concentrations.getD j 0) ^ stoPair.1
          let cm := (net.neighbours_a j).foldl
            (fun (cm : ℚ × Nat) kk =>
              if net.hasEdge kk i = false then cm
              else if net.isAdd kk i = true then cm
              else
                let sp := net.stoOf kk i
                (cm.1 * ((sp.2 : ℚ) * (concentrations.getD kk 0) ^ sp.1),
                 cm.2 + 1))
            (conc0, 1)
          acc + cm.1 * net.kOf j i / (cm.2 : ℚ))
        0
    inflows - outflows)

/-- `System(*args)` builds its network with `make_network(args)`
(src/rksim/systems.py lines 248-255). -/
def System.ofReactions (reactions : List Reaction) : Except ErrKind Network :=
  makeNetwork reactions

/-- `Reaction.swap_reactants_and_products` (src/rksim/reactions.py lines
43-55): flip every component's role.  (The `RKSimCritical` branch for a
species that is neither a `Reactant` nor a `Product` is unreachable here
because `Role` has exactly those constructors.) -/
def Reaction.swap (r : Reaction) : Reaction :=
  { r with
    components := r.components.map
      (fun s =>
        { s with
          role := match s.role with
                  | .reactant => .product
                  | .product => .reactant }) }

/-- `ReactionSet` (src/rksim/reactions.py lines 118-232). -/
structure ReactionSet where
  reactions : List Reaction
deriving DecidableEq, Repr

/-- `ReactionSet.__init__` + `add_reverse_reactions` (src/rksim/reactions.py
lines 203-232): every reversible reaction is followed by a deep copy with
reactants and products swapped. -/
def ReactionSet.ofReactions (args : List Reaction) : ReactionSet :=
  ⟨args.flatMap (fun r => if r.isReversible then [r, r.swap] else [r])⟩

/-- `ReactionSet.set_rate_constants(ks=...)` (src/rksim/reactions.py lines
179-197): a list whose length differs from the number of reactions raises
`CannotSetAttribute`; otherwise `reaction.k = ks[i]` for each reaction. -/
def ReactionSet.setRateConstants (rset : ReactionSet) (ks : List ℚ) :
    Except ErrKind ReactionSet :=
  if ks.length ≠ rset.reactions.length then .error .cannotSet
  else .ok ⟨rset.reactions.zipWith (fun r k => { r with k := k }) ks⟩

/-- A value held in a numpy array handed to `TimeSeries`: either a number,
or a value (such as a non-numeric string) whose `float()` conversion raises. -/
inductive PyVal where
  | num (q : ℚ)
  | nonNum
deriving DecidableEq, Repr

/-- Does `float(value)` succeed? -/
def PyVal.isNum : PyVal → Bool
  | .num _ => true
  | .nonNum => false

/-- The numeric value (0 for the non-numeric case, which the call sites
only reach after a successful conversion check). -/
def PyVal.toQ : PyVal → ℚ
  | .num q => q
  | .nonNum => 0

/-- `TimeSeries` (src/rksim/data.py lines 9-68). -/
structure TimeSeries where
  name : String
  times : List PyVal
  concentrations : List PyVal
  isSimulated : Bool := false
deriving DecidableEq, Repr

/-- `np.diff`: consecutive differences. -/
def diffs (l : List ℚ) : List ℚ :=
  (l.zip l.tail).map (fun p => p.2 - p.1)

/-- `TimeSeries._check` (src/rksim/data.py lines 14-36), run by
`__init__`: assert every value of `times` then of `concentrations` converts
to float; assert the shapes agree; then raise if
`np.min(np.diff(times)) < 0`.  When `times` has fewer than two entries,
`np.diff` is empty and `np.min` of an empty array raises `ValueError`.
`np.min(d) < 0` is written here as `d.any (· < 0)`, which is equivalent. -/
def TimeSeries.check (ts : TimeSeries) : Except ErrKind Unit :=
  if ts.times.all PyVal.isNum = false then .error .assertionError
  else if ts.concentrations.all PyVal.isNum = false then .error .assertionError
  else if ts.times.length ≠ ts.concentrations.length then .error .assertionError
  else if ts.times.length < 2 then .error .valueError
  else if (diffs (ts.times.map PyVal.toQ)).any (fun d => d < 0) then
    .error .assertionError
  else .ok ()

/-- The inner node loop of `Data.assign` (src/rksim/data.py lines 107-123)
for one time series: every node whose name matches gets
`c0 = time_series.concentrations[0]`.  Indexing an empty array is an
`IndexError`; it is only reached when some node matches.  (The model's
`c0 : ℚ` cannot hold a non-numeric value; an experimental series that
passed `_check` is all-numeric.) -/
def assignSeries (net : Network) (ts : TimeSeries) : Except ErrKind Network :=
  if net.nodes.any (fun nd => nd.name == ts.name) then
    match ts.concentrations.head? with
    | none => .error .indexError
    | some (.num q) =>
        .ok { net with
              nodes := net.nodes.map
                (fun nd => if nd.name == ts.name then { nd with c0 := q } else nd) }
    | some .nonNum => .error .nonNumericStore
  else .ok net

/-- `Data.assign(system)` (src/rksim/data.py lines 107-123): apply
`assignSeries` for each stored time series in order. -/
def assign (net : Network) (series : List TimeSeries) : Except ErrKind Network :=
  series.foldlM assignSeries net

/-- The initial-concentration vector passed to the integrator
(src/rksim/fit.py line 26):
`[system.network.nodes[i]['c0'] for i in system.network.nodes]`. -/
def initConcs (net : Network) : List ℚ :=
  net.nodes.map (fun nd => nd.c0)

/-! ## Concrete systems used by the claims -/

/-- The empty network, used as the (never reached) fallback when reading a
successfully constructed network out of `Except`. -/
def emptyNetwork : Network := ⟨[], [], []⟩

/-- `Irreversible(Reactant('R'), Product('P'))` -/
def rxnRP : Reaction := Reaction.ofSpecies .irreversible [Reactant "R", Product "P"]

/-- The network of `System(Irreversible(Reactant('R'), Product('P')))`. -/
def netRP : Network := (makeNetwork [rxnRP]).toOption.getD emptyNetwork

/-- `Irreversible(Reactant('A'), Reactant('B'), Product('C'))` -/
def rxnABC : Reaction :=
  Reaction.ofSpecies .irreversible [Reactant "A", Reactant "B", Product "C"]

/-- The network of `System(Irreversible(Reactant('A'), Reactant('B'),
Product('C')))`; nodes in component (alphabetical) order A, B, C. -/
def netABC : Network := (makeNetwork [rxnABC]).toOption.getD emptyNetwork

/-- `Irreversible(Reactant('A'), Reactant('A'), Product('B'))`, i.e.
`2A -> B`. -/
def rxn2AB : Reaction :=
  Reaction.ofSpecies .irreversible [Reactant "A", Reactant "A", Product "B"]

/-- `Irreversible(Reactant('A'), Reactant('B'), Product('C'), Product('D'))` -/
def rxnABCD : Reaction :=
  Reaction.ofSpecies .irreversible
    [Reactant "A", Reactant "B", Product "C", Product "D"]

/-- The network of `System(Irreversible(A, B -> C, D))`. -/
def netABCD : Network := (makeNetwork [rxnABCD]).toOption.getD emptyNetwork

/-- `Reversible(Reactant('A'), Reactant('B'), Product('P'))` -/
def rxnABPrev : Reaction :=
  Reaction.ofSpecies .reversible [Reactant "A", Reactant "B", Product "P"]

/-- The network of `System(Reversible(A, B -> P))`. -/
def netABPrev : Network := (makeNetwork [rxnABPrev]).toOption.getD emptyNetwork

/-- The network of the chained reversible system
`System(Reversible(A, B -> C), Reversible(C -> D))`. -/
def netChain : Network :=
  (makeNetwork
    [Reaction.ofSpecies .reversible [Reactant "A", Reactant "B", Product "C"],
     Reaction.ofSpecies .reversible [Reactant "C", Product "D"]]).toOption.getD
    emptyNetwork

/-- The three-reaction network `A+B->P`, `B+C->Q`, `C->P` on which the
rate-constant classes overlap.  Nodes: A=0, B=1, P=2, C=3, Q=4. -/
def netOverlap : Network :=
  (makeNetwork
    [Reaction.ofSpecies .irreversible [Reactant "A", Reactant "B", Product "P"],
     Reaction.ofSpecies .irreversible [Reactant "B", Reactant "C", Product "Q"],
     Reaction.ofSpecies .irreversible [Reactant "C", Product "P"]]).toOption.getD
    emptyNetwork

/-- `netRP` with every rate constant set to `k`, written out: nodes P, R
and the single reaction edge R -> P. -/
def netRPk (k : ℚ) : Network :=
  { nodes :=
      [{ name := "P", c0 := 1 / 100000000, species := Product "P", nNeighbours := 0 },
       { name := "R", c0 := 1 / 100000000, species := Reactant "R", nNeighbours := 0 }],
    edgeIns := [((1, 0), { add := false, k := some k, sto := (1, 1) })],
    edgeMapping := [(0, [(1, 0)])] }

/-- `netABC` with every rate constant set to `k`, written out: nodes
A, B, C, the addition edges A-B, and the reaction edges A -> C, B -> C
(one shared-k class). -/
def netABCk (k : ℚ) : Network :=
  { nodes :=
      [{ name := "A", c0 := 1 / 100000000, species := Reactant "A", nNeighbours := 1 },
       { name := "B", c0 := 1 / 100000000, species := Reactant "B", nNeighbours := 1 },
       { name := "C", c0 := 1 / 100000000, species := Product "C", nNeighbours := 0 }],
    edgeIns :=
      [((0, 1), { add := true, k := none, sto := (0, 0) }),
       ((1, 0), { add := true, k := none, sto := (0, 0) }),
       ((0, 2), { add := false, k := some k, sto := (1, 1) }),
       ((1, 2), { add := false, k := some k, sto := (1, 1) })],
    edgeMapping := [(1, [(0, 2), (1, 2)])] }

/-- The rate-constant equivalence classes of a network, pairwise disjoint:
no edge is shared between two classes. -/
def classesPairwiseDisjoint (net : Network) : Prop :=
  net.edgeMapping.Pairwise (fun c d => ∀ e ∈ c.2, e ∉ d.2)

/-- Prepend a whole segment to the first piece of a split. -/
def consAll (l : List Char) : List (List Char) → List (List Char)
  | [] => [l]
  | h :: t => (l ++ h) :: t

/-- The experimental series that determines a node's `c0` after
`Data.assign`: the last stored series whose name matches (later series
overwrite earlier ones). -/
def lastMatch (series : List TimeSeries) (nm : String) : Option TimeSeries :=
  (series.filter (fun ts => ts.name == nm)).getLast?

/-- The node rewrite performed by one `Data.assign` series. -/
def assignFn (ts : TimeSeries) (nd : Node) : Node :=
  if nd.name == ts.name then
    { nd with c0 := (ts.concentrations.headD .nonNum).toQ }
  else nd

/-! ## Claim theorems -/

/-- C10: Species equality (`Species.__eq__`) is decided by name alone: two
species compare equal exactly when their names are equal, whatever their
roles (reactant vs product) or stoichiometries are. -/
theorem C10_species_equality_by_name_only (s t : Species) :
    speciesEq s t = true ↔ s.name = t.name := by
  simp [speciesEq]

/-- C2: the code fails on the claim's input.  Building the network for the
single reaction `2A -> B` (`Irreversible(Reactant('A'), Reactant('A'),
Product('B'))`) raises `NotImplementedError` in `add_nodes`, because the
merged species A has stoichiometric order 2; so the construction does not
succeed, contrary to the claim (and to the repository's own
`test_derivative7` and `test_higher_order.py`, which expect
`d[A]/dt = -2k[A]^2`, `d[B]/dt = k[A]^2`). -/
theorem C2_two_A_to_B_construction_raises :
    makeNetwork [rxn2AB] = .error .notImplemented ∧
    (rxn2AB.sto "A" = 2 ∧ rxn2AB.sto "B" = 1) := by
  constructor
  · rfl
  · constructor <;> rfl

/-- C4: the number of rate-constant equivalence classes produced by network
construction: exactly 1 for `A+B->C+D`, exactly 2 for `A+B<->P`, and
exactly 4 for the chained reversible pair `A+B<->C`, `C<->D`. -/
theorem C4_equivalence_class_counts :
    netABCD.edgeMapping.length = 1 ∧
    netABPrev.edgeMapping.length = 2 ∧
    netChain.edgeMapping.length = 4 := by
  refine ⟨?_, ?_, ?_⟩ <;> rfl

/-- C1: mass-action kinetics of `derivative` for a single irreversible
reaction.  For `R -> P` with rate constant `k` (concentration vector in
node order `[P, R]`): `d[P]/dt = k*[R]`, `d[R]/dt = -k*[R]`.  For
`A+B->C` with rate constant `k` (node order `[A, B, C]`):
`d[A]/dt = d[B]/dt = -k*[A]*[B]` and `d[C]/dt = +k*[A]*[B]`; for every
non-negative concentration vector and any time argument. -/
theorem C1_single_reaction_mass_action (k t cP cR cA cB cC : ℚ)
    (hP : 0 ≤ cP) (hR : 0 ≤ cR) (hA : 0 ≤ cA) (hB : 0 ≤ cB) (hC : 0 ≤ cC) :
    derivative (setRateConstantsK netRP k) [cP, cR] t = [k * cR, -(k * cR)] ∧
    derivative (setRateConstantsK netABC k) [cA, cB, cC] t =
      [-(k * cA * cB), -(k * cA * cB), k * cA * cB] := by
  constructor
  · have h : setRateConstantsK netRP k = netRPk k := rfl
    rw [h]
    have h2 : List.range 2 = [0, 1] := rfl
    simp [derivative, h2, netRPk, outflowNode, inflowNode,
      Network.neighbours_a, Network.neighbours, Network.edgesInOrder,
      Network.hasEdge, Network.isAdd, Network.attrs?, Network.kOf,
      Network.stoOf, List.filterMap, List.foldl]
    ring_nf
  · have h : setRateConstantsK netABC k = netABCk k := rfl
    rw [h]
    have h3 : List.range 3 = [0, 1, 2] := rfl
    simp [derivative, h3, netABCk, outflowNode, inflowNode,
      Network.neighbours_a, Network.neighbours, Network.edgesInOrder,
      Network.hasEdge, Network.isAdd, Network.attrs?, Network.kOf,
      Network.stoOf, List.filterMap, List.foldl]
    ring_nf
    refine ⟨by ring_nf, by ring_nf, by ring_nf⟩

/-- Witness for C1 at `k = 2`, `t = 5`, `[P],[R] = 0, 1` and
`[A],[B],[C] = 2, 1, 0`. -/
theorem C1_single_reaction_mass_action_witness :
    derivative (setRateConstantsK netRP 2) [0, 1] 5 = [2 * 1, -(2 * 1)] ∧
    derivative (setRateConstantsK netABC 2) [2, 1, 0] 5 =
      [-(2 * 2 * 1), -(2 * 2 * 1), 2 * 2 * 1] :=
  C1_single_reaction_mass_action 2 5 0 1 2 1 0 (by norm_num) (by norm_num)
    (by norm_num) (by norm_num) (by norm_num)

/-- C5, counterexample: `System.set_rate_constants` guards the length of
`ks` with a bare `assert`, so passing a wrong-length list to the network
`R -> P` (one equivalence class) raises Python `AssertionError` — not an
error of the `AttributeRejected` kind (`CannotSetAttribute`), contrary to
the claim. -/
theorem C5_wrong_length_is_assertion_not_rejected :
    setRateConstants netRP [1, 1] = .error .assertionError ∧
    ErrKind.assertionError ≠ ErrKind.cannotSet := by
  constructor
  · rfl
  · intro h
    exact ErrKind.noConfusion h

/-- C5, amended: a wrong-length list makes `System.set_rate_constants`
fail with an assertion error (for every network); the per-reaction
`ReactionSet.set_rate_constants` is the one that raises the
`AttributeRejected` kind (`CannotSetAttribute`) on a wrong-length list; and
querying `System.rate_constant` for a pair with no edge raises the
`AttributeNotFound` kind (`CannotGetAttribute`), for every network and
absent pair. -/
theorem C5_amended_error_kinds :
    (∀ (net : Network) (ks : List ℚ), ks.length ≠ net.edgeMapping.length →
      setRateConstants net ks = .error .assertionError) ∧
    (∀ (rset : ReactionSet) (ks : List ℚ), ks.length ≠ rset.reactions.length →
      rset.setRateConstants ks = .error .cannotSet) ∧
    (∀ (net : Network) (nameI nameJ : String), net.getEdge nameI nameJ = none →
      rateConstant net nameI nameJ = .error .cannotGet) := by
  refine ⟨?_, ?_, ?_⟩
  · intro net ks h
    simp [setRateConstants, h]
  · intro rset ks h
    simp [ReactionSet.setRateConstants, h]
  · intro net nameI nameJ h
    simp [rateConstant, h]

/-- Witness for C5's amended statement: the `R -> P` network with a
two-element list, the one-reaction set with a two-element list, and the
absent pair `('X', 'Y')`. -/
theorem C5_amended_error_kinds_witness :
    setRateConstants netRP [1, 1] = .error .assertionError ∧
    (ReactionSet.ofReactions [rxnRP]).setRateConstants [1, 1] =
      .error .cannotSet ∧
    rateConstant netRP "X" "Y" = .error .cannotGet := by
  refine ⟨C5_amended_error_kinds.1 netRP [1, 1] (by decide),
          C5_amended_error_kinds.2.1 (ReactionSet.ofReactions [rxnRP]) [1, 1]
            (by decide),
          C5_amended_error_kinds.2.2 netRP "X" "Y" (by decide)⟩

/-- C3, counterexample: the equivalence classes are not a partition.  In
the network of `A+B->P`, `B+C->Q`, `C->P` (nodes A=0, B=1, P=2, C=3, Q=4)
the reaction edge B -> P, i.e. `(1, 2)`, belongs to two classes (the class
of A -> P and the class of C -> P); and after
`set_rate_constants([1, 2, 3])` the class of A -> P holds edges with
different rate constants (`k(A->P) = 1` but `k(B->P) = 3`), so classes are
not kept in lock-step either. -/
theorem C3_counterexample_overlapping_classes :
    netOverlap.edgeMapping =
      [(1, [(0, 2), (1, 2)]), (5, [(1, 4), (3, 4)]), (8, [(3, 2), (1, 2)])] ∧
    (netOverlap.edgeMapping.filter (fun c => (1, 2) ∈ c.2)).length = 2 ∧
    (setRateConstantsList netOverlap [1, 2, 3]).kOf 0 2 = 1 ∧
    (setRateConstantsList netOverlap [1, 2, 3]).kOf 1 2 = 3 := by
  refine ⟨rfl, by decide, rfl, rfl⟩

/-! ## Helper lemmas about `setK` and the rate-constant folds -/

/-- The key-respecting rewrite performed by `setK` commutes with `find?` on
an edge key. -/
theorem find?_key_map_setK (l : List ((Nat × Nat) × EdgeAttrs)) (i j a b : Nat)
    (v : ℚ) :
    (l.map (fun e => if e.1 = (i, j) then (e.1, { e.2 with k := some v }) else e)).find?
        (fun e => e.1 = (a, b)) =
      (l.find? (fun e => e.1 = (a, b))).map
        (fun e => if e.1 = (i, j) then (e.1, { e.2 with k := some v }) else e) := by
  rw [List.find?_map]
  have hfun :
      ((fun (e : (Nat × Nat) × EdgeAttrs) => decide (e.1 = (a, b))) ∘
        (fun e => if e.1 = (i, j) then (e.1, { e.2 with k := some v }) else e)) =
      (fun (e : (Nat × Nat) × EdgeAttrs) => decide (e.1 = (a, b))) := by
    funext e
    by_cases h : e.1 = (i, j) <;> simp [h, Function.comp]
  rw [hfun]

/-- `setK` does not create or delete edges. -/
theorem hasEdge_setK (net : Network) (i j a b : Nat) (v : ℚ) :
    (net.setK i j v).hasEdge a b = net.hasEdge a b := by
  unfold Network.setK Network.hasEdge
  simp only [List.any_map]
  congr 1
  funext e
  by_cases h : e.1 = (i, j) <;> simp [h, Function.comp]

/-- `setK` at one key leaves the attributes of every other key unchanged. -/
theorem attrs?_setK_ne (net : Network) (i j a b : Nat) (v : ℚ)
    (h : (a, b) ≠ (i, j)) :
    (net.setK i j v).attrs? a b = net.attrs? a b := by
  unfold Network.setK Network.attrs?
  rw [find?_key_map_setK]
  cases hf : net.edgeIns.find? (fun e => e.1 = (a, b)) with
  | none => simp
  | some e0 =>
      have h1 : e0.1 = (a, b) := by simpa using List.find?_some hf
      have h2 : ¬ e0.1 = (i, j) := by rw [h1]; exact h
      simp [h2]

/-- `kOf` at a different key is unchanged by `setK`. -/
theorem kOf_setK_ne (net : Network) (i j a b : Nat) (v : ℚ)
    (h : (a, b) ≠ (i, j)) :
    (net.setK i j v).kOf a b = net.kOf a b := by
  unfold Network.kOf
  rw [attrs?_setK_ne net i j a b v h]

/-- `kOf` at the written key becomes the written value (when the edge
exists). -/
theorem kOf_setK_eq (net : Network) (i j : Nat) (v : ℚ)
    (he : net.hasEdge i j = true) :
    (net.setK i j v).kOf i j = v := by
  unfold Network.hasEdge at he
  have hex : ∃ x ∈ net.edgeIns, (fun e => decide (e.1 = (i, j))) x = true := by
    simpa using List.any_eq_true.mp he
  have hsome : (net.edgeIns.find? (fun e => e.1 = (i, j))).isSome = true :=
    List.find?_isSome.mpr hex
  obtain ⟨e0, hf⟩ := Option.isSome_iff_exists.mp hsome
  have h1 : e0.1 = (i, j) := by simpa using List.find?_some hf
  unfold Network.kOf Network.attrs? Network.setK
  rw [find?_key_map_setK, hf]
  simp [h1]

/-- Folding `setK` over a class never changes which edges exist. -/
theorem hasEdge_foldl_setK (cls : List (Nat × Nat)) (v : ℚ) :
    ∀ (net : Network) (a b : Nat),
      (cls.foldl (fun a2 e => a2.setK e.1 e.2 v) net).hasEdge a b =
        net.hasEdge a b := by
  induction cls with
  | nil => intro net a b; rfl
  | cons e0 rest ih =>
      intro net a b
      rw [List.foldl_cons, ih, hasEdge_setK]

/-- Folding `setK` over a class not containing a key leaves that key's `k`
unchanged. -/
theorem kOf_foldl_setK_notmem (cls : List (Nat × Nat)) (v : ℚ) :
    ∀ (net : Network) (a b : Nat), (a, b) ∉ cls →
      (cls.foldl (fun a2 e => a2.setK e.1 e.2 v) net).kOf a b = net.kOf a b := by
  induction cls with
  | nil => intro net a b _; rfl
  | cons e0 rest ih =>
      obtain ⟨x, y⟩ := e0
      intro net a b hnm
      rw [List.foldl_cons, ih _ a b (fun h => hnm (List.mem_cons_of_mem _ h))]
      refine kOf_setK_ne net x y a b v ?_
      intro h
      exact hnm (by rw [h]; exact List.mem_cons_self _ _)

/-- Folding `setK v` over a class containing an existing edge sets that
edge's `k` to `v`. -/
theorem kOf_foldl_setK_mem (cls : List (Nat × Nat)) (v : ℚ) :
    ∀ (net : Network) (a b : Nat), (a, b) ∈ cls → net.hasEdge a b = true →
      (cls.foldl (fun a2 e => a2.setK e.1 e.2 v) net).kOf a b = v := by
  induction cls with
  | nil => intro net a b hm _; exact absurd hm (List.not_mem_nil _)
  | cons e0 rest ih =>
      obtain ⟨x, y⟩ := e0
      intro net a b hm he
      rw [List.foldl_cons]
      by_cases hr : (a, b) ∈ rest
      · exact ih _ a b hr (by rw [hasEdge_setK]; exact he)
      · have h0 : a = x ∧ b = y := by
          rcases List.mem_cons.mp hm with h | h
          · simpa using h
          · exact absurd h hr
        obtain ⟨rfl, rfl⟩ := h0
        rw [kOf_foldl_setK_notmem rest v _ a b hr]
        exact kOf_setK_eq net a b v he

/-- The class-by-class fold of `set_rate_constants` never changes which
edges exist. -/
theorem hasEdge_foldl_classes (ks : List ℚ)
    (l : List (Nat × (Nat × List (Nat × Nat)))) :
    ∀ (net : Network) (a b : Nat),
      (l.foldl
          (fun a0 p =>
            p.2.2.foldl (fun a2 e => a2.setK e.1 e.2 (ks.getD p.1 0)) a0)
          net).hasEdge a b = net.hasEdge a b := by
  induction l with
  | nil => intro net a b; rfl
  | cons q l2 ih =>
      intro net a b
      rw [List.foldl_cons, ih, hasEdge_foldl_setK]

/-- The class-by-class fold leaves `k` of an edge in no processed class
unchanged. -/
theorem kOf_foldl_classes_notmem (ks : List ℚ)
    (l : List (Nat × (Nat × List (Nat × Nat)))) :
    ∀ (net : Network) (a b : Nat), (∀ p ∈ l, (a, b) ∉ p.2.2) →
      (l.foldl
          (fun a0 p =>
            p.2.2.foldl (fun a2 e => a2.setK e.1 e.2 (ks.getD p.1 0)) a0)
          net).kOf a b = net.kOf a b := by
  induction l with
  | nil => intro net a b _; rfl
  | cons q l2 ih =>
      intro net a b hnm
      rw [List.foldl_cons,
        ih _ a b (fun p hp => hnm p (List.mem_cons_of_mem _ hp)),
        kOf_foldl_setK_notmem _ _ _ a b (hnm q (List.mem_cons_self q l2))]

/-- The class-by-class fold writes `ks[n]` to an existing edge when every
class containing that edge carries index `n` (and at least one does). -/
theorem kOf_foldl_classes_main (ks : List ℚ) (n a b : Nat) :
    ∀ (l : List (Nat × (Nat × List (Nat × Nat)))) (net : Network),
      net.hasEdge a b = true →
      (∃ p ∈ l, (a, b) ∈ p.2.2 ∧ p.1 = n) →
      (∀ p ∈ l, (a, b) ∈ p.2.2 → p.1 = n) →
      (l.foldl
          (fun a0 p =>
            p.2.2.foldl (fun a2 e => a2.setK e.1 e.2 (ks.getD p.1 0)) a0)
          net).kOf a b = ks.getD n 0 := by
  intro l
  induction l with
  | nil => intro net _ hex _; simp at hex
  | cons q l2 ih =>
      intro net he hex hall
      rw [List.foldl_cons]
      have he1 :
          (q.2.2.foldl (fun a2 e => a2.setK e.1 e.2 (ks.getD q.1 0)) net).hasEdge
            a b = true := by
        rw [hasEdge_foldl_setK]; exact he
      by_cases hq : (a, b) ∈ q.2.2
      · have hn : q.1 = n := hall q (List.mem_cons_self q l2) hq
        have hk1 :
            (q.2.2.foldl (fun a2 e => a2.setK e.1 e.2 (ks.getD q.1 0)) net).kOf
              a b = ks.getD n 0 := by
          rw [kOf_foldl_setK_mem _ _ _ a b hq he, hn]
        by_cases hrest : ∃ p ∈ l2, (a, b) ∈ p.2.2 ∧ p.1 = n
        · exact ih _ he1 hrest (fun p hp => hall p (List.mem_cons_of_mem _ hp))
        · have hnone : ∀ p ∈ l2, (a, b) ∉ p.2.2 := by
            intro p hp hmem
            exact hrest ⟨p, hp, hmem, hall p (List.mem_cons_of_mem _ hp) hmem⟩
          rw [kOf_foldl_classes_notmem ks l2 _ a b hnone]
          exact hk1
      · obtain ⟨p, hp, hmem, hpn⟩ := hex
        have hp2 : p ∈ l2 := by
          rcases List.mem_cons.mp hp with rfl | h
          · exact absurd hmem hq
          · exact h
        have hk1 :
            (q.2.2.foldl (fun a2 e => a2.setK e.1 e.2 (ks.getD q.1 0)) net).kOf
              a b = net.kOf a b :=
          kOf_foldl_setK_notmem _ _ _ a b hq
        exact ih _ he1 ⟨p, hp2, hmem, hpn⟩
          (fun p2 hp3 => hall p2 (List.mem_cons_of_mem _ hp3))

/-! ## Helper lemmas about `set_edge_mapping` -/

/-- One mapping step only ever appends to `added_edges`. -/
theorem setEdgeMappingStep_added_mono (net : Network)
    (acc : List (Nat × List (Nat × Nat)) × List (Nat × Nat))
    (p : Nat × ((Nat × Nat) × EdgeAttrs)) :
    ∀ x ∈ acc.2, x ∈ (setEdgeMappingStep net acc p).2 := by
  intro x hx
  simp only [setEdgeMappingStep]
  split
  · exact hx
  · split
    · exact hx
    · exact List.mem_append_left _ hx

/-- One mapping step preserves "every added edge lies in some class". -/
theorem setEdgeMappingStep_cover (net : Network)
    (acc : List (Nat × List (Nat × Nat)) × List (Nat × Nat))
    (p : Nat × ((Nat × Nat) × EdgeAttrs))
    (h : ∀ x ∈ acc.2, ∃ c ∈ acc.1, x ∈ c.2) :
    ∀ x ∈ (setEdgeMappingStep net acc p).2,
      ∃ c ∈ (setEdgeMappingStep net acc p).1, x ∈ c.2 := by
  intro x hx
  simp only [setEdgeMappingStep] at hx ⊢
  by_cases h1 : p.2.2.add = true
  · rw [if_pos h1] at hx ⊢
    exact h x hx
  · rw [if_neg h1] at hx ⊢
    by_cases h2 : (p.2.1.1, p.2.1.2) ∈ acc.2
    · rw [if_pos h2] at hx ⊢
      exact h x hx
    · rw [if_neg h2] at hx ⊢
      dsimp only at hx ⊢
      rcases List.mem_append.mp hx with hxx | hxx
      · obtain ⟨c, hc, hcx⟩ := h x hxx
        exact ⟨c, List.mem_append_left _ hc, hcx⟩
      · exact ⟨_, List.mem_append_right _ (List.mem_cons_self _ _), hxx⟩

/-- A non-addition edge processed by one mapping step ends up in
`added_edges`. -/
theorem setEdgeMappingStep_self (net : Network)
    (acc : List (Nat × List (Nat × Nat)) × List (Nat × Nat))
    (p : Nat × ((Nat × Nat) × EdgeAttrs)) (hadd : p.2.2.add = false) :
    p.2.1 ∈ (setEdgeMappingStep net acc p).2 := by
  simp only [setEdgeMappingStep]
  rw [if_neg (by simp [hadd])]
  split
  · next hmem => simpa using hmem
  · refine List.mem_append_right _ ?_
    simp

/-- Folding mapping steps only ever appends to `added_edges`. -/
theorem setEdgeMapping_fold_added_mono (net : Network)
    (l : List (Nat × ((Nat × Nat) × EdgeAttrs))) :
    ∀ acc, ∀ x ∈ acc.2, x ∈ (l.foldl (setEdgeMappingStep net) acc).2 := by
  induction l with
  | nil => intro acc x hx; exact hx
  | cons q l2 ih =>
      intro acc x hx
      rw [List.foldl_cons]
      exact ih _ x (setEdgeMappingStep_added_mono net acc q x hx)

/-- Folding mapping steps preserves "every added edge lies in some class". -/
theorem setEdgeMapping_fold_cover (net : Network)
    (l : List (Nat × ((Nat × Nat) × EdgeAttrs))) :
    ∀ acc, (∀ x ∈ acc.2, ∃ c ∈ acc.1, x ∈ c.2) →
      ∀ x ∈ (l.foldl (setEdgeMappingStep net) acc).2,
        ∃ c ∈ (l.foldl (setEdgeMappingStep net) acc).1, x ∈ c.2 := by
  induction l with
  | nil => intro acc h; exact h
  | cons q l2 ih =>
      intro acc h
      rw [List.foldl_cons]
      exact ih _ (setEdgeMappingStep_cover net acc q h)

/-- Every non-addition edge in the processed list ends up in
`added_edges`. -/
theorem setEdgeMapping_fold_contains (net : Network)
    (l : List (Nat × ((Nat × Nat) × EdgeAttrs))) :
    ∀ acc, ∀ p ∈ l, p.2.2.add = false →
      p.2.1 ∈ (l.foldl (setEdgeMappingStep net) acc).2 := by
  induction l with
  | nil => intro acc p hp; exact absurd hp (List.not_mem_nil _)
  | cons q l2 ih =>
      intro acc p hp hadd
      rw [List.foldl_cons]
      rcases List.mem_cons.mp hp with rfl | h
      · exact setEdgeMapping_fold_added_mono net l2 _ p.2.1
          (setEdgeMappingStep_self net acc p hadd)
      · exact ih _ p h hadd

/-- C3, amended: the equivalence classes computed by `set_edge_mapping`
cover the reaction (non-addition) edges — every reaction edge belongs to at
least one class (but possibly to several, so they need not be a
partition) — and `set_rate_constants` writes each supplied `k` to every
edge of its class in class order; whenever the classes are pairwise
disjoint, every existing edge of the `n`-th class ends up carrying exactly
`ks[n]`, so all edges within one class then hold an identical `k`. -/
theorem C3_amended_cover_and_disjoint_lockstep :
    (∀ (net : Network) (i j : Nat) (a : EdgeAttrs),
        ((i, j), a) ∈ (setEdgeMapping net).edgesInOrder → a.add = false →
        ∃ c ∈ (setEdgeMapping net).edgeMapping, (i, j) ∈ c.2) ∧
    (∀ (net net2 : Network) (ks : List ℚ),
        setRateConstants net ks = .ok net2 →
        classesPairwiseDisjoint net →
        ∀ (n key : Nat) (cls : List (Nat × Nat)),
          net.edgeMapping.get? n = some (key, cls) →
          ∀ i j, (i, j) ∈ cls → net.hasEdge i j = true →
          net2.kOf i j = ks.getD n 0) := by
  constructor
  · intro net i j a hmem hadd
    have hmm : (setEdgeMapping net).edgeMapping =
        (net.edgesInOrder.enum.foldl (setEdgeMappingStep net) ([], [])).1 := rfl
    rw [hmm]
    have hmem2 : ((i, j), a) ∈ List.map Prod.snd net.edgesInOrder.enum := by
      rw [List.enum_map_snd]
      exact hmem
    obtain ⟨p, hp, hpe⟩ := List.mem_map.mp hmem2
    have hin : p.2.1 ∈
        (net.edgesInOrder.enum.foldl (setEdgeMappingStep net) ([], [])).2 :=
      setEdgeMapping_fold_contains net _ ([], []) p hp (by rw [hpe]; exact hadd)
    have hcov := setEdgeMapping_fold_cover net net.edgesInOrder.enum ([], [])
      (by intro x hx; exact absurd hx (List.not_mem_nil _)) p.2.1 hin
    rw [hpe] at hcov
    exact hcov
  · intro net net2 ks hok hdisj n key cls hget i j hmemc hedge
    have hnet2 : net2 = setRateConstantsList net ks := by
      unfold setRateConstants at hok
      split at hok
      · injection hok with h
        exact h.symm
      · exact Except.noConfusion hok
    subst hnet2
    unfold setRateConstantsList
    apply kOf_foldl_classes_main ks n i j net.edgeMapping.enum net hedge
    · exact ⟨(n, (key, cls)), List.mk_mem_enum_iff_get?.mpr hget, hmemc, rfl⟩
    · intro p hp hmem
      obtain ⟨m, entry⟩ := p
      show m = n
      have hgm : net.edgeMapping.get? m = some entry :=
        List.mk_mem_enum_iff_get?.mp hp
      by_contra hmn
      have hRn := List.pairwise_iff_get.mp hdisj
      obtain ⟨hmlt, hgetm⟩ := List.get?_eq_some.mp hgm
      obtain ⟨hnlt, hgetn⟩ := List.get?_eq_some.mp hget
      rcases Nat.lt_or_ge m n with hlt | hge
      · have hR := hRn ⟨m, hmlt⟩ ⟨n, hnlt⟩ hlt
        rw [hgetm, hgetn] at hR
        exact hR (i, j) hmem hmemc
      · have hlt2 : n < m := Nat.lt_of_le_of_ne hge (fun hh => hmn hh.symm)
        have hR := hRn ⟨n, hnlt⟩ ⟨m, hmlt⟩ hlt2
        rw [hgetm, hgetn] at hR
        exact hR (i, j) hmemc hmem

/-- Witness for C3's amended statement on the `R -> P` network: its single
reaction edge `(1, 0)` lies in a class, and `set_rate_constants([5])`
leaves it with `k = 5`. -/
theorem C3_amended_cover_and_disjoint_lockstep_witness :
    (∃ c ∈ (setEdgeMapping netRP).edgeMapping, (1, 0) ∈ c.2) ∧
    (setRateConstantsList netRP [5]).kOf 1 0 = 5 := by
  constructor
  · exact C3_amended_cover_and_disjoint_lockstep.1 netRP 1 0
      ⟨false, some 1, (1, 1)⟩ (by decide) rfl
  · have h := C3_amended_cover_and_disjoint_lockstep.2 netRP
      (setRateConstantsList netRP [5]) [5] rfl
      (by unfold classesPairwiseDisjoint; decide) 0 0 [(1, 0)]
      (by decide) 1 0 (by decide) (by decide)
    simpa using h

/-! ## Helper lemmas about `prune_species` -/

/-- Inserting into the name-sorted list is a permutation of consing. -/
theorem insertByName_perm (s : Species) (l : List Species) :
    List.Perm (insertByName s l) (s :: l) := by
  induction l with
  | nil => exact List.Perm.refl _
  | cons t ts ih =>
      by_cases h : pyStrLt t.name s.name = true
      · simp only [insertByName, if_pos h]
        exact (ih.cons t).trans (List.Perm.swap s t ts)
      · simp only [insertByName, if_neg h]
        exact List.Perm.refl _

/-- The name sort permutes its input. -/
theorem sortByName_perm (l : List Species) : List.Perm (sortByName l) l := by
  induction l with
  | nil => exact List.Perm.refl _
  | cons s ss ih => exact (insertByName_perm s (sortByName ss)).trans (ih.cons s)

/-- A name appears among the first-occurrence representatives exactly when
it appears in the list and is not yet seen. -/
theorem mem_map_name_firstPerName (l : List Species) :
    ∀ (seen : List String) (nm : String),
      nm ∈ (firstPerName seen l).map (fun s => s.name) ↔
        (nm ∈ l.map (fun s => s.name) ∧ nm ∉ seen) := by
  induction l with
  | nil => intro seen nm; simp [firstPerName]
  | cons s rest ih =>
      intro seen nm
      by_cases hs : seen.any (fun x => x == s.name) = true
      · have hseen : s.name ∈ seen := by
          obtain ⟨x, hx, hxe⟩ := List.any_eq_true.mp hs
          rwa [beq_iff_eq.mp hxe] at hx
        rw [firstPerName, if_pos hs, ih seen nm]
        simp only [List.map_cons, List.mem_cons]
        constructor
        · rintro ⟨h1, h2⟩
          exact ⟨Or.inr h1, h2⟩
        · rintro ⟨h1 | h1, h2⟩
          · exact absurd (h1 ▸ hseen) h2
          · exact ⟨h1, h2⟩
      · have hnseen : s.name ∉ seen := by
          intro hmem
          exact hs (List.any_eq_true.mpr ⟨s.name, hmem, beq_self_eq_true _⟩)
        rw [firstPerName, if_neg hs]
        simp only [List.map_cons, List.mem_cons]
        rw [ih (s.name :: seen) nm]
        constructor
        · rintro (rfl | ⟨h1, h2⟩)
          · exact ⟨Or.inl rfl, hnseen⟩
          · exact ⟨Or.inr h1, fun hh => h2 (List.mem_cons_of_mem _ hh)⟩
        · rintro ⟨rfl | h1, h2⟩
          · exact Or.inl rfl
          · by_cases hEq : nm = s.name
            · exact Or.inl hEq
            · exact Or.inr ⟨h1, by simp [hEq, h2]⟩

/-- The first-occurrence representatives carry pairwise distinct names. -/
theorem nodup_map_name_firstPerName (l : List Species) :
    ∀ seen : List String,
      ((firstPerName seen l).map (fun s => s.name)).Nodup := by
  induction l with
  | nil => intro seen; simp [firstPerName]
  | cons s rest ih =>
      intro seen
      by_cases hs : seen.any (fun x => x == s.name) = true
      · simpa [firstPerName, hs] using ih seen
      · simp only [firstPerName, if_neg hs, List.map_cons]
        refine List.nodup_cons.mpr ⟨?_, ih _⟩
        intro hmem
        rw [mem_map_name_firstPerName] at hmem
        exact hmem.2 (List.mem_cons_self _ _)

/-- The stoichiometry-setting map does not change names. -/
theorem map_name_setSto (comps l : List Species) :
    (l.map (fun t =>
        { t with stoichiometry := comps.countP (fun u : Species => u.name == t.name) })).map
      (fun s => s.name) = l.map (fun s => s.name) := by
  rw [List.map_map]
  rfl

/-- The names of the pruned components are exactly the names occurring in
the input. -/
theorem mem_map_name_pruneSpecies (comps : List Species) (nm : String) :
    nm ∈ (pruneSpecies comps).map (fun s => s.name) ↔
      nm ∈ comps.map (fun s => s.name) := by
  unfold pruneSpecies
  rw [((sortByName_perm _).map (fun s => s.name)).mem_iff, map_name_setSto,
    mem_map_name_firstPerName]
  simp

/-- The pruned components carry pairwise distinct names. -/
theorem nodup_map_name_pruneSpecies (comps : List Species) :
    ((pruneSpecies comps).map (fun s => s.name)).Nodup := by
  unfold pruneSpecies
  rw [((sortByName_perm _).map (fun s => s.name)).nodup_iff, map_name_setSto]
  exact nodup_map_name_firstPerName comps []

/-- Every pruned component's stoichiometry is the occurrence count of its
name in the input. -/
theorem sto_of_mem_pruneSpecies (comps : List Species) (s : Species)
    (h : s ∈ pruneSpecies comps) :
    s.stoichiometry = comps.countP (fun t => t.name == s.name) := by
  unfold pruneSpecies at h
  rw [(sortByName_perm _).mem_iff] at h
  obtain ⟨t, _, rfl⟩ := List.mem_map.mp h
  rfl

/-- `Reaction.sto` on a pruned reaction is the occurrence count of the name
in the constructor arguments (0 when absent). -/
theorem sto_ofSpecies (kind : RxnKind) (args : List Species) (nm : String) :
    (Reaction.ofSpecies kind args).sto nm =
      args.countP (fun t => t.name == nm) := by
  have hcomp : (Reaction.ofSpecies kind args).components = pruneSpecies args := rfl
  unfold Reaction.sto
  rw [hcomp]
  cases hf : (pruneSpecies args).find? (fun s => s.name == nm) with
  | none =>
      rw [List.find?_eq_none] at hf
      have habs : nm ∉ args.map (fun s => s.name) := by
        rw [← mem_map_name_pruneSpecies]
        intro hmem
        obtain ⟨s, hs, hse⟩ := List.mem_map.mp hmem
        exact hf s hs (by simp [hse])
      have : args.countP (fun t => t.name == nm) = 0 := by
        rw [List.countP_eq_zero]
        intro t ht hte
        exact habs (List.mem_map.mpr ⟨t, ht, beq_iff_eq.mp hte⟩)
      rw [this]
  | some s0 =>
      have h1 : s0.name = nm := by simpa using List.find?_some hf
      have h2 : s0 ∈ pruneSpecies args := List.mem_of_find?_eq_some hf
      dsimp only
      rw [sto_of_mem_pruneSpecies args s0 h2, h1]

/-- C7, counterexample: constructing a `Reaction` from a flat list with no
`Product` instance does not fail — `Reaction.__init__` performs no
validation — here `Reaction(Reactant('R'))` yields a well-defined reaction
with one reactant and zero products. -/
theorem C7_counterexample_no_product_validation :
    (Reaction.ofSpecies .base [Reactant "R"]).components =
      [{ name := "R", role := .reactant, stoichiometry := 1 }] ∧
    (Reaction.ofSpecies .base [Reactant "R"]).products = [] := by
  exact ⟨rfl, rfl⟩

/-- C7, amended: constructing a `Reaction` from a flat list of
reactant/product instances merges duplicates by name — the component names
are pairwise distinct, are exactly the names occurring in the argument
list, and each component's stoichiometry (equally, `Reaction.sto` of any
name) equals the occurrence count of that name; but no validation is
performed: a reaction with zero reactants or zero products is constructed
without error. -/
theorem C7_amended_merge_without_validation (kind : RxnKind)
    (args : List Species) :
    ((Reaction.ofSpecies kind args).components.map (fun s => s.name)).Nodup ∧
    (∀ nm : String,
      nm ∈ (Reaction.ofSpecies kind args).components.map (fun s => s.name) ↔
        nm ∈ args.map (fun s => s.name)) ∧
    (∀ s ∈ (Reaction.ofSpecies kind args).components,
      s.stoichiometry = args.countP (fun t => t.name == s.name)) ∧
    (∀ nm : String,
      (Reaction.ofSpecies kind args).sto nm =
        args.countP (fun t => t.name == nm)) := by
  have hcomp : (Reaction.ofSpecies kind args).components = pruneSpecies args := rfl
  refine ⟨?_, ?_, ?_, ?_⟩
  · rw [hcomp]
    exact nodup_map_name_pruneSpecies args
  · intro nm
    rw [hcomp]
    exact mem_map_name_pruneSpecies args nm
  · intro s hs
    rw [hcomp] at hs
    exact sto_of_mem_pruneSpecies args s hs
  · intro nm
    exact sto_ofSpecies kind args nm

/-! ## Helper lemmas about the string grammar -/

/-- `consHead` never produces the empty split. -/
theorem consHead_ne_nil (c : Char) (ls : List (List Char)) :
    consHead c ls ≠ [] := by
  cases ls <;> simp [consHead]

/-- A split always has at least one piece. -/
theorem splitArrow_ne_nil (xs : List Char) : splitArrow xs ≠ [] := by
  cases xs with
  | nil => simp [splitArrow]
  | cons c rest =>
      rw [splitArrow.eq_def]
      split
      · next heq => exact absurd heq (by simp)
      · next c2 rest2 heq =>
          injection heq with h1 h2
          subst h1
          subst h2
          split
          · simp
          · exact consHead_ne_nil _ _

/-- Splitting a list whose head is not a dash keeps that head on the first
piece. -/
theorem splitArrow_cons_of_ne (c : Char) (rest : List Char) (h : c ≠ '-') :
    splitArrow (c :: rest) = consHead c (splitArrow rest) := by
  rw [splitArrow.eq_def]
  split
  · next heq => exact absurd heq (by simp)
  · next c2 rest2 heq =>
      injection heq with h1 h2
      subst h1
      subst h2
      split
      · exact absurd rfl h
      · rfl

/-- Prepending a character then a segment is prepending the longer
segment. -/
theorem consHead_consAll (c : Char) (l : List Char)
    (S : List (List Char)) :
    consHead c (consAll l S) = consAll (c :: l) S := by
  cases S <;> simp [consHead, consAll]

/-- Splitting after a dash-free prefix prepends that prefix to the first
piece of the rest's split. -/
theorem splitArrow_append (l : List Char) (xs : List Char)
    (h : ∀ c ∈ l, c ≠ '-') :
    splitArrow (l ++ xs) = consAll l (splitArrow xs) := by
  induction l with
  | nil =>
      cases hs : splitArrow xs with
      | nil => exact absurd hs (splitArrow_ne_nil xs)
      | cons p t =>
          rw [List.nil_append, hs]
          simp [consAll]
  | cons c l2 ih =>
      have hc : c ≠ '-' := h c (List.mem_cons_self _ _)
      show splitArrow (c :: (l2 ++ xs)) = _
      rw [splitArrow_cons_of_ne c _ hc,
        ih (fun d hd => h d (List.mem_cons_of_mem _ hd)), consHead_consAll]

/-- A dash-free string does not split. -/
theorem splitArrow_no_dash (l : List Char) (h : ∀ c ∈ l, c ≠ '-') :
    splitArrow l = [l] := by
  have h2 := splitArrow_append l [] h
  rw [List.append_nil] at h2
  rw [h2]
  simp [splitArrow, consAll]

/-- Splitting `L ++ "->" ++ R` with dash-free `L` and `R` gives exactly the
two sides. -/
theorem splitArrow_two_sides (L R : List Char)
    (hL : ∀ c ∈ L, c ≠ '-') (hR : ∀ c ∈ R, c ≠ '-') :
    splitArrow (L ++ '-' :: '>' :: R) = [L, R] := by
  rw [splitArrow_append L _ hL]
  have h1 : splitArrow ('-' :: '>' :: R) = [] :: splitArrow R := rfl
  rw [h1, splitArrow_no_dash R hR]
  simp [consAll]

/-- A character of `intercalate sep ls` comes from the separator or from
one of the pieces. -/
theorem forall_mem_intercalate {p : Char → Prop} (sep : List Char)
    (hsep : ∀ c ∈ sep, p c) :
    ∀ ls : List (List Char), (∀ l ∈ ls, ∀ c ∈ l, p c) →
      ∀ c ∈ List.intercalate sep ls, p c := by
  intro ls
  induction ls with
  | nil =>
      intro _ c hc
      simp [List.intercalate] at hc
  | cons l ls2 ih =>
      cases ls2 with
      | nil =>
          intro h c hc
          have hl : List.intercalate sep [l] = l := by
            simp [List.intercalate]
          rw [hl] at hc
          exact h l (List.mem_cons_self _ _) c hc
      | cons l2 ls3 =>
          intro h c hc
          have hstep : List.intercalate sep (l :: l2 :: ls3) =
              l ++ sep ++ List.intercalate sep (l2 :: ls3) := by
            simp [List.intercalate, List.intersperse_cons_cons]
          rw [hstep] at hc
          rcases List.mem_append.mp hc with hc1 | hc1
          · rcases List.mem_append.mp hc1 with hc2 | hc2
            · exact h l (List.mem_cons_self _ _) c hc2
            · exact hsep c hc2
          · exact ih (fun m hm => h m (List.mem_cons_of_mem _ hm)) c hc1

/-- C6, counterexample: the parser is not whitespace-insensitive and does
not treat `<->` as a separator.  `Reaction('A+B<->C')` yields a reactant
literally named `"B<"` (the `<` stays attached, because the code splits on
the exact substring `->`), and `Reaction('A ->B')` yields a reactant named
`"A "` (no stripping); neither matches the names the claimed grammar
dictates. -/
theorem C6_counterexample_angle_and_whitespace :
    initFromString "A+B<->C" =
      .ok [{ name := "A", role := .reactant, stoichiometry := 1 },
           { name := "B<", role := .reactant, stoichiometry := 1 },
           { name := "C", role := .product, stoichiometry := 1 }] ∧
    initFromString "A ->B" =
      .ok [{ name := "A ", role := .reactant, stoichiometry := 1 },
           { name := "B", role := .product, stoichiometry := 1 }] := by
  exact ⟨rfl, rfl⟩

/-- C6, amended: for an input assembled from nonempty lists of reactant and
product names that contain none of the characters `+`, `-`, `>` (so in
particular no whitespace sensitivity and no `<->` arrow is exercised), the
parser splits the string on the exact substring `->`, splits each side on
`+`, makes the left names `Reactant`s and the right names `Product`s, and
prunes; a name duplicated anywhere raises that species' stoichiometry to
its occurrence count. -/
theorem C6_amended_plain_arrow_grammar (rs ps : List (List Char))
    (hrs : rs ≠ []) (hps : ps ≠ [])
    (hchars : ∀ l ∈ rs ++ ps, ∀ c ∈ l, c ≠ '+' ∧ c ≠ '-' ∧ c ≠ '>') :
    initFromString
        (String.mk
          (List.intercalate ['+'] rs ++ '-' :: '>' :: List.intercalate ['+'] ps)) =
      .ok (pruneSpecies
        (rs.map (fun nm => Reactant (String.mk nm)) ++
         ps.map (fun nm => Product (String.mk nm)))) ∧
    (∀ (kind : RxnKind) (nm : List Char),
      (Reaction.ofSpecies kind
          (rs.map (fun l => Reactant (String.mk l)) ++
           ps.map (fun l => Product (String.mk l)))).sto (String.mk nm) =
        (rs ++ ps).countP (fun l => l = nm)) := by
  have hplusL : ∀ l ∈ rs, '+' ∉ l := by
    intro l hl hc
    exact ((hchars l (List.mem_append_left _ hl)) '+' hc).1 rfl
  have hplusR : ∀ l ∈ ps, '+' ∉ l := by
    intro l hl hc
    exact ((hchars l (List.mem_append_right _ hl)) '+' hc).1 rfl
  have hdashL : ∀ c ∈ List.intercalate ['+'] rs, c ≠ '-' :=
    forall_mem_intercalate ['+'] (by intro c hc; simp at hc; simp [hc]) rs
      (fun l hl c hc => ((hchars l (List.mem_append_left _ hl)) c hc).2.1)
  have hdashR : ∀ c ∈ List.intercalate ['+'] ps, c ≠ '-' :=
    forall_mem_intercalate ['+'] (by intro c hc; simp at hc; simp [hc]) ps
      (fun l hl c hc => ((hchars l (List.mem_append_right _ hl)) c hc).2.1)
  constructor
  · unfold initFromString
    have hdata :
        (String.mk
            (List.intercalate ['+'] rs ++
              '-' :: '>' :: List.intercalate ['+'] ps)).data =
          List.intercalate ['+'] rs ++ '-' :: '>' :: List.intercalate ['+'] ps :=
      rfl
    rw [hdata, splitArrow_two_sides _ _ hdashL hdashR]
    dsimp only
    rw [List.splitOn_intercalate rs '+' hplusL hrs,
      List.splitOn_intercalate ps '+' hplusR hps]
  · intro kind nm
    have h1 : ∀ l0 ∈ rs,
        (((fun (t : Species) => t.name == String.mk nm) ∘
            (fun l => Reactant (String.mk l))) l0 = true ↔
          decide (l0 = nm) = true) := by
      intro l0 _
      simp [Function.comp, Reactant, String.ext_iff]
    have h2 : ∀ l0 ∈ ps,
        (((fun (t : Species) => t.name == String.mk nm) ∘
            (fun l => Product (String.mk l))) l0 = true ↔
          decide (l0 = nm) = true) := by
      intro l0 _
      simp [Function.comp, Product, String.ext_iff]
    rw [sto_ofSpecies, List.countP_append, List.countP_map, List.countP_map,
      List.countP_congr h1, List.countP_congr h2, List.countP_append]

/-- Witness for C6's amended statement at `A+B->C` (assembled from the
name lists `[A], [B]` and `[C]`). -/
theorem C6_amended_plain_arrow_grammar_witness :
    (initFromString
        (String.mk
          (List.intercalate ['+'] [['A'], ['B']] ++
            '-' :: '>' :: List.intercalate ['+'] [['C']])) =
      .ok (pruneSpecies
        ([['A'], ['B']].map (fun nm => Reactant (String.mk nm)) ++
         [['C']].map (fun nm => Product (String.mk nm))))) ∧
    (Reaction.ofSpecies .irreversible
        ([['A'], ['B']].map (fun l => Reactant (String.mk l)) ++
         [['C']].map (fun l => Product (String.mk l)))).sto (String.mk ['A']) =
      ([['A'], ['B']] ++ [['C']]).countP (fun l => l = ['A']) := by
  have h := C6_amended_plain_arrow_grammar [['A'], ['B']] [['C']]
    (by simp) (by simp) (by decide)
  exact ⟨h.1, h.2 .irreversible ['A']⟩

/-- C8, counterexample: `TimeSeries._check` only rejects a *decreasing*
time step (`np.min(np.diff(times)) < 0`), so a times array that is not
strictly increasing — here two equal times `[0, 0]` — passes validation,
contrary to the claim. -/
theorem C8_counterexample_equal_times_pass :
    TimeSeries.check ⟨"ts", [.num 0, .num 0], [.num 1, .num 2], false⟩ =
      .ok () ∧
    diffs [(0 : ℚ), 0] = [0] ∧ ¬ (0 : ℚ) < 0 := by
  refine ⟨?_, by norm_num [diffs], by norm_num⟩
  unfold TimeSeries.check
  norm_num [diffs, PyVal.isNum, PyVal.toQ]

/-- C8, amended: `TimeSeries` construction validates its inputs:
validation succeeds exactly when every value of both arrays converts to
float, the arrays have equal length, the times array has at least two
samples (`np.min` of an empty `np.diff` raises), and the times are
non-decreasing — so non-convertible values, mismatched lengths and
decreasing times all raise, but merely non-strictly-increasing (equal
consecutive) times are accepted; a successfully constructed `TimeSeries`
therefore has non-decreasing times and equal-length arrays. -/
theorem C8_amended_validation (name : String) (times concs : List PyVal)
    (sim : Bool) :
    TimeSeries.check ⟨name, times, concs, sim⟩ = .ok () ↔
      (times.all PyVal.isNum = true ∧ concs.all PyVal.isNum = true ∧
       times.length = concs.length ∧ 2 ≤ times.length ∧
       ∀ d ∈ diffs (times.map PyVal.toQ), 0 ≤ d) := by
  unfold TimeSeries.check
  dsimp only
  split_ifs with h1 h2 h3 h4 h5
  · simp [h1]
  · simp [h2]
  · simp [h3]
  · constructor
    · intro hc
      exact absurd hc (by simp)
    · rintro ⟨-, -, -, hlen, -⟩
      omega
  · constructor
    · intro hc
      exact absurd hc (by simp)
    · rintro ⟨-, -, -, -, hmono⟩
      obtain ⟨d, hd, hdlt⟩ := List.any_eq_true.mp h5
      exact absurd (hmono d hd) (by simpa using hdlt)
  · refine ⟨fun _ => ⟨?_, ?_, ?_, ?_, ?_⟩, fun _ => rfl⟩
    · cases hb : times.all PyVal.isNum
      · exact absurd hb h1
      · rfl
    · cases hb : concs.all PyVal.isNum
      · exact absurd hb h2
      · rfl
    · exact not_not.mp h3
    · omega
    · intro d hd
      by_contra hneg
      exact h5 (List.any_eq_true.mpr
        ⟨d, hd, by simp [lt_of_not_ge hneg]⟩)

/-! ## Helper lemmas for the initial-concentration vector -/

/-- `lastMatch` over a cons: the rest wins if it matches at all, otherwise
the head if its name agrees. -/
theorem lastMatch_cons (ts : TimeSeries) (rest : List TimeSeries)
    (nm : String) :
    lastMatch (ts :: rest) nm =
      match lastMatch rest nm with
      | some t2 => some t2
      | none => if ts.name == nm then some ts else none := by
  unfold lastMatch
  rw [List.filter_cons]
  by_cases hts : (ts.name == nm) = true
  · rw [if_pos hts]
    cases hfr : rest.filter (fun t => t.name == nm) with
    | nil => simp [hfr, hts]
    | cons h t =>
        rw [List.getLast?_cons_cons]
        cases hgl : (h :: t).getLast? with
        | none => exact absurd hgl (by simp)
        | some x => simp
  · rw [if_neg hts]
    cases hgl : (rest.filter (fun t => t.name == nm)).getLast? with
    | none => simp [hgl, hts]
    | some x => simp [hgl]

/-- Facts extracted from a passing `TimeSeries._check`: all concentrations
numeric and at least two samples. -/
theorem check_ok_concs (ts : TimeSeries) (h : ts.check = .ok ()) :
    ts.concentrations.all PyVal.isNum = true ∧
    ts.concentrations.length = ts.times.length ∧ 2 ≤ ts.times.length := by
  unfold TimeSeries.check at h
  by_cases h1 : ts.times.all PyVal.isNum = false
  · rw [if_pos h1] at h
    exact absurd h (by simp)
  · rw [if_neg h1] at h
    by_cases h2 : ts.concentrations.all PyVal.isNum = false
    · rw [if_pos h2] at h
      exact absurd h (by simp)
    · rw [if_neg h2] at h
      by_cases h3 : ts.times.length ≠ ts.concentrations.length
      · rw [if_pos h3] at h
        exact absurd h (by simp)
      · rw [if_neg h3] at h
        by_cases h4 : ts.times.length < 2
        · rw [if_pos h4] at h
          exact absurd h (by simp)
        · rw [if_neg h4] at h
          refine ⟨?_, (not_not.mp h3).symm, by omega⟩
          cases hb : ts.concentrations.all PyVal.isNum
          · exact absurd hb h2
          · rfl

/-- `assignSeries` on a checked series succeeds and rewrites exactly the
matching nodes' `c0` to the series' first concentration sample. -/
theorem assignSeries_ok (net : Network) (ts : TimeSeries)
    (hc : ts.check = .ok ()) :
    assignSeries net ts = .ok { net with nodes := net.nodes.map (assignFn ts) } := by
  obtain ⟨hall, hlen, h2⟩ := check_ok_concs ts hc
  unfold assignSeries
  by_cases hmatch : net.nodes.any (fun nd => nd.name == ts.name) = true
  · rw [if_pos hmatch]
    cases hcs : ts.concentrations with
    | nil =>
        rw [hcs] at hlen
        have h0 : (0 : Nat) = ts.times.length := hlen
        omega
    | cons v rest =>
        cases v with
        | num q =>
            dsimp only [List.head?]
            refine congrArg Except.ok ?_
            refine congrArg (fun nds => { net with nodes := nds }) ?_
            refine (List.map_congr_left ?_).symm
            intro nd _
            unfold assignFn
            rw [hcs]
            rfl
        | nonNum =>
            have hbad : PyVal.isNum (PyVal.nonNum) = true := by
              have hmem : PyVal.nonNum ∈ ts.concentrations := by
                rw [hcs]
                exact List.mem_cons_self _ _
              exact List.all_eq_true.mp hall _ hmem
            exact absurd hbad (by simp [PyVal.isNum])
  · rw [if_neg hmatch]
    have hnone : ∀ nd ∈ net.nodes, (nd.name == ts.name) = false := by
      intro nd hnd
      cases hb : nd.name == ts.name
      · rfl
      · exact absurd (List.any_eq_true.mpr ⟨nd, hnd, hb⟩) hmatch
    have hmap : net.nodes.map (assignFn ts) = net.nodes := by
      have : ∀ nd ∈ net.nodes, assignFn ts nd = nd := by
        intro nd hnd
        unfold assignFn
        rw [hnone nd hnd]
        simp
      calc net.nodes.map (assignFn ts) = net.nodes.map id :=
            List.map_congr_left (by simpa using this)
        _ = net.nodes := List.map_id _
    rw [hmap]

/-- `Data.assign` on checked series succeeds, and each node's final `c0`
is the first sample of the last matching series (unchanged if none
matches). -/
theorem assign_c0 (series : List TimeSeries) :
    ∀ net : Network, (∀ ts ∈ series, ts.check = .ok ()) →
      assign net series = .ok { net with
        nodes := net.nodes.map (fun nd =>
          match lastMatch series nd.name with
          | some t2 => { nd with c0 := (t2.concentrations.headD .nonNum).toQ }
          | none => nd) } := by
  induction series with
  | nil =>
      intro net _
      have : net.nodes.map (fun nd =>
          match lastMatch [] nd.name with
          | some t2 => { nd with c0 := (t2.concentrations.headD .nonNum).toQ }
          | none => nd) = net.nodes := by
        calc net.nodes.map _ = net.nodes.map id :=
              List.map_congr_left (by intro nd _; simp [lastMatch])
          _ = net.nodes := List.map_id _
      rw [this]
      rfl
  | cons ts rest ih =>
      intro net h
      have hstep := assignSeries_ok net ts (h ts (List.mem_cons_self _ _))
      have hrest := ih { net with nodes := net.nodes.map (assignFn ts) }
        (fun t ht => h t (List.mem_cons_of_mem _ ht))
      have hmaps : net.nodes.map (fun nd =>
          match lastMatch (ts :: rest) nd.name with
          | some t2 => { nd with c0 := (t2.concentrations.headD .nonNum).toQ }
          | none => nd) =
        (net.nodes.map (assignFn ts)).map (fun nd =>
          match lastMatch rest nd.name with
          | some t2 => { nd with c0 := (t2.concentrations.headD .nonNum).toQ }
          | none => nd) := by
        rw [List.map_map]
        refine (List.map_congr_left ?_).symm
        intro nd _
        simp only [Function.comp]
        rw [lastMatch_cons]
        unfold assignFn
        by_cases hts : (nd.name == ts.name) = true
        · rw [if_pos hts]
          cases hlm : lastMatch rest nd.name with
          | some t2 => simp [hlm]
          | none => simp [hlm, beq_iff_eq.mp hts]
        · rw [if_neg hts]
          cases hlm : lastMatch rest nd.name with
          | some t2 => simp [hlm]
          | none =>
              have hflip : (ts.name == nd.name) = false := by
                cases hb : ts.name == nd.name
                · rfl
                · exact absurd (by simp [beq_iff_eq.mp hb]) hts
              simp [hlm, hflip]
      show (ts :: rest).foldlM assignSeries net = _
      rw [List.foldlM_cons, hstep]
      show assign _ rest = _
      rw [hrest, hmaps]

/-- Decompose a successful `Except` bind. -/
theorem bind_ok {α β : Type} (x : Except ErrKind α) (f : α → Except ErrKind β)
    (b : β) (h : (x >>= f) = .ok b) : ∃ a, x = .ok a ∧ f a = .ok b := by
  cases x with
  | error e =>
      simp only [bind, Except.bind] at h
      exact Except.noConfusion h
  | ok a => exact ⟨a, rfl, h⟩

/-- A successful `pure` returns its argument. -/
theorem pure_ok {α : Type} {a b : α}
    (h : (pure a : Except ErrKind α) = .ok b) : a = b := by
  simpa [pure, Except.pure] using h

/-- `add_edge` never touches the node set. -/
theorem nodes_addEdge (net : Network) (i j : Nat) (a : EdgeAttrs) :
    (net.addEdge i j a).nodes = net.nodes := by
  unfold Network.addEdge
  split <;> rfl

/-- A fold of node-preserving operations preserves the nodes. -/
theorem nodes_foldl {α : Type} (f : Network → α → Network)
    (hf : ∀ n x, (f n x).nodes = n.nodes) :
    ∀ (l : List α) (net : Network), (l.foldl f net).nodes = net.nodes := by
  intro l
  induction l with
  | nil => intro net; rfl
  | cons a l2 ih =>
      intro net
      rw [List.foldl_cons, ih, hf]

/-- `add_reaction_edges` never touches the node set. -/
theorem nodes_addReactionEdges (net : Network) (rxn : Reaction) :
    (addReactionEdges net rxn).nodes = net.nodes := by
  unfold addReactionEdges
  refine nodes_foldl _ ?_ _ _
  intro n r
  refine nodes_foldl _ ?_ _ _
  intro n2 p
  dsimp only
  split
  · rw [nodes_addEdge, nodes_addEdge]
  · rw [nodes_addEdge]

/-- `add_addition_edges` never touches the node set. -/
theorem nodes_addAdditionEdges (net : Network) (ss : List Species)
    (net2 : Network) (h : addAdditionEdges net ss = .ok net2) :
    net2.nodes = net.nodes := by
  unfold addAdditionEdges at h
  split at h
  · injection h with hh
    rw [← hh, nodes_addEdge, nodes_addEdge]
  · exact Except.noConfusion h
  · injection h with hh
    rw [← hh]

/-- The edge-building fold of `make_network` never touches the node set. -/
theorem nodes_foldlM_rxn :
    ∀ (l : List Reaction) (net net2 : Network),
      l.foldlM
          (fun n rxn => do
            let na ← addAdditionEdges n rxn.reactants
            let nb ← addAdditionEdges na rxn.products
            pure (addReactionEdges nb rxn))
          net = .ok net2 →
      net2.nodes = net.nodes := by
  intro l
  induction l with
  | nil =>
      intro net net2 h
      rw [← pure_ok h]
  | cons r l2 ih =>
      intro net net2 h
      rw [List.foldlM_cons] at h
      obtain ⟨n1, h1, h2⟩ := bind_ok _ _ _ h
      obtain ⟨na, ha, hrest⟩ := bind_ok _ _ _ h1
      obtain ⟨nb, hb, hpure⟩ := bind_ok _ _ _ hrest
      have hn1 : n1 = addReactionEdges nb r := (pure_ok hpure).symm
      rw [ih n1 net2 h2, hn1, nodes_addReactionEdges,
        nodes_addAdditionEdges na r.products nb hb,
        nodes_addAdditionEdges net r.reactants na ha]

/-- Every node produced by the inner loop of `add_nodes` carries the
`c0 = 1E-8` sentinel (given the accumulator does). -/
theorem c0_addNodes_inner :
    ∀ (comps : List Species) (acc res : List Node),
      (∀ nd ∈ acc, nd.c0 = 1 / 100000000) →
      comps.foldlM
          (fun (acc2 : List Node) s =>
            if s.stoichiometry ≠ 1 then Except.error ErrKind.notImplemented
            else if acc2.any (fun nd => nd.name == s.name) then .ok acc2
            else .ok (acc2 ++ [{ name := s.name, c0 := 1 / 100000000, species := s }]))
          acc = .ok res →
      ∀ nd ∈ res, nd.c0 = 1 / 100000000 := by
  intro comps
  induction comps with
  | nil =>
      intro acc res hacc h
      rw [← pure_ok h]
      exact hacc
  | cons s rest ih =>
      intro acc res hacc h
      rw [List.foldlM_cons] at h
      obtain ⟨acc1, h1, h2⟩ := bind_ok _ _ _ h
      have hacc1 : ∀ nd ∈ acc1, nd.c0 = 1 / 100000000 := by
        by_cases hs : s.stoichiometry ≠ 1
        · rw [if_pos hs] at h1
          exact absurd h1 (by simp)
        · rw [if_neg hs] at h1
          by_cases hany : acc.any (fun nd => nd.name == s.name) = true
          · rw [if_pos hany] at h1
            injection h1 with hh
            rw [← hh]
            exact hacc
          · rw [if_neg hany] at h1
            injection h1 with hh
            rw [← hh]
            intro nd hnd
            rcases List.mem_append.mp hnd with h3 | h3
            · exact hacc nd h3
            · rw [List.mem_singleton.mp h3]
      exact ih acc1 res hacc1 h2

/-- Every node produced by `add_nodes` carries the `c0 = 1E-8` sentinel. -/
theorem c0_addNodes :
    ∀ (reactions : List Reaction) (acc res : List Node),
      (∀ nd ∈ acc, nd.c0 = 1 / 100000000) →
      reactions.foldlM
          (fun acc0 rxn =>
            rxn.components.foldlM
              (fun (acc2 : List Node) s =>
                if s.stoichiometry ≠ 1 then Except.error ErrKind.notImplemented
                else if acc2.any (fun nd => nd.name == s.name) then .ok acc2
                else .ok (acc2 ++
                  [{ name := s.name, c0 := 1 / 100000000, species := s }]))
              acc0)
          acc = .ok res →
      ∀ nd ∈ res, nd.c0 = 1 / 100000000 := by
  intro reactions
  induction reactions with
  | nil =>
      intro acc res hacc h
      rw [← pure_ok h]
      exact hacc
  | cons rxn rest ih =>
      intro acc res hacc h
      rw [List.foldlM_cons] at h
      obtain ⟨acc1, h1, h2⟩ := bind_ok _ _ _ h
      exact ih acc1 res (c0_addNodes_inner rxn.components acc acc1 hacc h1) h2

/-- `populate_neighbour_number` only rewrites `n_neighbours`; every node of
its output shares its `c0` with a node of the input. -/
theorem c0_populate (net : Network) :
    ∀ nd ∈ (populateNeighbourNumber net).nodes,
      ∃ nd0 ∈ net.nodes, nd.c0 = nd0.c0 := by
  intro nd hnd
  unfold populateNeighbourNumber at hnd
  dsimp only at hnd
  obtain ⟨p, hp, hpe⟩ := List.mem_map.mp hnd
  refine ⟨p.2, ?_, by rw [← hpe]⟩
  have hmem : p.2 ∈ List.map Prod.snd net.nodes.enum := List.mem_map_of_mem _ hp
  rwa [List.enum_map_snd] at hmem

/-- Every node of a network built by `make_network` starts with the
`c0 = 1E-8` sentinel. -/
theorem c0_makeNetwork (reactions : List Reaction) (net : Network)
    (h : makeNetwork reactions = .ok net) :
    ∀ nd ∈ net.nodes, nd.c0 = 1 / 100000000 := by
  unfold makeNetwork at h
  obtain ⟨nodes0, h1, h2⟩ := bind_ok _ _ _ h
  obtain ⟨net1, h3, h4⟩ := bind_ok _ _ _ h2
  have hnet : net = setEdgeMapping (populateNeighbourNumber net1) :=
    (pure_ok h4).symm
  have hn1 : net1.nodes = nodes0 :=
    nodes_foldlM_rxn reactions ⟨nodes0, [], []⟩ net1 h3
  intro nd hnd
  have hnd2 : nd ∈ (populateNeighbourNumber net1).nodes := by
    rw [hnet] at hnd
    exact hnd
  obtain ⟨nd0, hnd0, hc0⟩ := c0_populate net1 nd hnd2
  rw [hc0]
  refine c0_addNodes reactions [] nodes0 (by intro x hx; exact absurd hx (List.not_mem_nil _)) ?_ nd0 ?_
  · exact h1
  · rw [← hn1]
    exact hnd0

/-- C9: the initial-concentration vector handed to the integrator
(`init_concs` in `fit`) has one entry per node in node order; a node whose
species has an attached experimental time series (the last stored series of
that name) contributes that series' first concentration sample, and every
other node contributes the `c0 = 1E-8` sentinel, which is strictly positive
and hence never exactly zero. -/
theorem C9_initial_concentration_vector (reactions : List Reaction)
    (net : Network) (series : List TimeSeries)
    (hmk : makeNetwork reactions = .ok net)
    (hchk : ∀ ts ∈ series, ts.check = .ok ()) :
    ∃ net2, assign net series = .ok net2 ∧
      (initConcs net2).length = net.nodes.length ∧
      initConcs net2 = net.nodes.map (fun nd =>
        match lastMatch series nd.name with
        | some t2 => (t2.concentrations.headD .nonNum).toQ
        | none => 1 / 100000000) ∧
      (0 : ℚ) < 1 / 100000000 := by
  have ha := assign_c0 series net hchk
  refine ⟨_, ha, ?_, ?_, by norm_num⟩
  · simp [initConcs]
  · unfold initConcs
    dsimp only
    rw [List.map_map]
    refine List.map_congr_left ?_
    intro nd hnd
    simp only [Function.comp]
    cases hlm : lastMatch series nd.name with
    | some t2 => simp [hlm]
    | none => simp [hlm, c0_makeNetwork reactions net hmk nd hnd]

/-- Witness for C9 on the `R -> P` network with one experimental series for
R (first sample 3): the vector is `[1E-8, 3]` in node order P, R. -/
theorem C9_initial_concentration_vector_witness :
    ∃ net2,
      assign netRP [⟨"R", [.num 0, .num 1], [.num 3, .num 4], false⟩] =
        .ok net2 ∧
      (initConcs net2).length = netRP.nodes.length ∧
      initConcs net2 = netRP.nodes.map (fun nd =>
        match lastMatch [⟨"R", [.num 0, .num 1], [.num 3, .num 4], false⟩]
            nd.name with
        | some t2 => (t2.concentrations.headD .nonNum).toQ
        | none => 1 / 100000000) ∧
      (0 : ℚ) < 1 / 100000000 := by
  refine C9_initial_concentration_vector [rxnRP] netRP
    [⟨"R", [.num 0, .num 1], [.num 3, .num 4], false⟩] rfl ?_
  intro ts hts
  rw [List.mem_singleton.mp hts]
  unfold TimeSeries.check
  norm_num [diffs, PyVal.isNum, PyVal.toQ]

/-- Witness for C7's amended statement on `Reaction(Reactant('R'),
Reactant('R'), Product('P'))`: distinct component names and `sto('R')`
equal to the occurrence count 2. -/
theorem C7_amended_merge_without_validation_witness :
    ((Reaction.ofSpecies .base
        [Reactant "R", Reactant "R", Product "P"]).components.map
      (fun s => s.name)).Nodup ∧
    (Reaction.ofSpecies .base [Reactant "R", Reactant "R", Product "P"]).sto "R" =
      [Reactant "R", Reactant "R", Product "P"].countP
        (fun t => t.name == "R") := by
  have h := C7_amended_merge_without_validation .base
    [Reactant "R", Reactant "R", Product "P"]
  exact ⟨h.1, h.2.2.2 "R"⟩

/-- Witness for C8's amended statement: a numeric, equal-length,
increasing two-sample series passes validation. -/
theorem C8_amended_validation_witness :
    TimeSeries.check ⟨"w", [.num 0, .num 1], [.num 2, .num 3], false⟩ =
      .ok () := by
  refine (C8_amended_validation "w" [.num 0, .num 1] [.num 2, .num 3]
    false).mpr ⟨rfl, rfl, rfl, by norm_num, ?_⟩
  intro d hd
  simp [diffs, PyVal.toQ] at hd
  simp [hd]

/-- Witness for C10: a `Reactant` and a `Product` with the same name
compare equal. -/
theorem C10_species_equality_by_name_only_witness :
    speciesEq (Reactant "X") (Product "X") = true :=
  (C10_species_equality_by_name_only (Reactant "X") (Product "X")).mpr rfl

end Rksim
